import Mathlib

/-
Verification of the autopush notification-store helpers in src/tests/db.py
against the natural-language specification.

Modelling conventions:
* Python strings are embedded as `List Char` (named `Chars`); DynamoDB's
  string comparison on sort keys is the lexicographic order `lexLt` on the
  character codes.
* Python `uuid.UUID` values are embedded as their 32-character lowercase
  hex form (the value of the `.hex` accessor); `uuidParse` models
  construction of `uuid.UUID` from a string (hyphens removed, hex digits
  lowercased, failure is `none`), `hyphenate` models `str(uuid.UUID(...))`.
* The DynamoDB table is a list of `Item`s; `put_item`, `getItem`,
  `removeItem`, update expressions and range queries are given the
  engine's documented per-row semantics (replace by key, first-match
  lookup, filter + ascending sort + limit).
* Fallible Python code (ValueError, AttributeError) returns `Option` /
  `Except PyErr`.
-/

set_option maxRecDepth 8192

abbrev Chars := List Char

/-- Characters of a Lean string literal, used to write Python string
literals in the embedding. -/
def str (s : String) : Chars := s.data

/-- Lexicographic strict order on character lists, by character code.
This is DynamoDB's ordering of (ASCII) string range keys. -/
def lexLt : Chars → Chars → Bool
  | [], [] => false
  | [], _ :: _ => true
  | _ :: _, [] => false
  | a :: as, b :: bs =>
    if a.toNat < b.toNat then true
    else if a = b then lexLt as bs
    else false

theorem lexLt_append_same (p a b : Chars) :
    lexLt (p ++ a) (p ++ b) = lexLt a b := by
  induction p with
  | nil => rfl
  | cons c cs ih =>
    show (if c.toNat < c.toNat then true else if c = c then lexLt (cs ++ a) (cs ++ b) else false)
        = lexLt a b
    rw [if_neg (lt_irrefl c.toNat), if_pos rfl, ih]

theorem lexLt_asymm {a b : Chars} (h : lexLt a b = true) : lexLt b a = false := by
  induction a generalizing b with
  | nil =>
    cases b with
    | nil => simp [lexLt] at h
    | cons y ys => simp [lexLt]
  | cons x xs ih =>
    cases b with
    | nil => simp [lexLt] at h
    | cons y ys =>
      simp only [lexLt] at h ⊢
      by_cases h1 : x.toNat < y.toNat
      · have h2 : ¬ y.toNat < x.toNat := lt_asymm h1
        have h3 : y ≠ x := by
          intro he; rw [he] at h1; exact lt_irrefl _ h1
        simp [h2, h3]
      · by_cases h2 : x = y
        · subst h2
          simp only [h1, if_neg, if_false, if_pos rfl] at h ⊢
          simp [ih h]
        · simp [h1, h2] at h

theorem lexLt_cons_of_lt {x y : Char} (as bs : Chars) (h : x.toNat < y.toNat) :
    lexLt (x :: as) (y :: bs) = true := by
  simp [lexLt, h]

theorem lexLt_cons_elim {x y : Char} {as bs : Chars}
    (h : lexLt (x :: as) (y :: bs) = true) :
    x.toNat < y.toNat ∨ (x = y ∧ lexLt as bs = true) := by
  simp only [lexLt] at h
  by_cases h1 : x.toNat < y.toNat
  · exact Or.inl h1
  · by_cases h2 : x = y
    · simp only [h1, if_false, if_pos h2] at h
      exact Or.inr ⟨h2, h⟩
    · simp [h1, h2] at h

/-- Key step for fixed-width keys: if two equal-length segments already
compare strictly, any suffixes leave the comparison unchanged. -/
theorem lexLt_append_of_lt {a b : Chars} (x y : Chars)
    (hlen : a.length = b.length) (h : lexLt a b = true) :
    lexLt (a ++ x) (b ++ y) = true := by
  induction a generalizing b with
  | nil =>
    cases b with
    | nil => simp [lexLt] at h
    | cons c cs => simp at hlen
  | cons c cs ih =>
    cases b with
    | nil => simp at hlen
    | cons d ds =>
      simp only [List.length_cons, Nat.succ.injEq] at hlen
      rcases lexLt_cons_elim h with h1 | ⟨rfl, h2⟩
      · simpa [List.cons_append] using lexLt_cons_of_lt (cs ++ x) (ds ++ y) h1
      · show (if c.toNat < c.toNat then true
              else if c = c then lexLt (cs ++ x) (ds ++ y) else false) = true
        rw [if_neg (lt_irrefl c.toNat), if_pos rfl]
        exact ih hlen h2

/-- Python str.split on a single colon separator: splits on every colon
and keeps empty pieces. -/
def splitCh : Chars → List Chars
  | [] => [[]]
  | c :: rest =>
    if c = ':' then [] :: splitCh rest
    else
      match splitCh rest with
      | p :: ps => (c :: p) :: ps
      | [] => [[c]]

theorem splitCh_ne_nil (l : Chars) : splitCh l ≠ [] := by
  induction l with
  | nil => simp [splitCh]
  | cons c rest ih =>
    simp only [splitCh]
    by_cases h : c = ':'
    · simp [h]
    · simp only [h, if_false]
      cases hs : splitCh rest with
      | nil => simp
      | cons p ps => simp

theorem splitCh_no_colon {l : Chars} (h : l.all (fun c => c ≠ ':') = true) :
    splitCh l = [l] := by
  induction l with
  | nil => rfl
  | cons c rest ih =>
    simp only [List.all_cons, Bool.and_eq_true, decide_eq_true_eq] at h
    simp only [splitCh, if_neg h.1, ih h.2]

theorem splitCh_append {a : Chars} (r : Chars)
    (h : a.all (fun c => c ≠ ':') = true) :
    splitCh (a ++ ':' :: r) = a :: splitCh r := by
  induction a with
  | nil => simp [splitCh]
  | cons c cs ih =>
    simp only [List.all_cons, Bool.and_eq_true, decide_eq_true_eq] at h
    show splitCh (c :: (cs ++ ':' :: r)) = (c :: cs) :: splitCh r
    simp only [splitCh, if_neg h.1, ih h.2]

/-- Python str.startswith. -/
def startsW : Chars → Chars → Bool
  | [], _ => true
  | _ :: _, [] => false
  | p :: ps, c :: cs => p = c && startsW ps cs

theorem startsW_append (p r : Chars) : startsW p (p ++ r) = true := by
  induction p with
  | nil => rfl
  | cons c cs ih => simp [startsW, ih]

/-- Table of decimal digit characters. -/
def digitChar : Nat → Char
  | 0 => '0'
  | 1 => '1'
  | 2 => '2'
  | 3 => '3'
  | 4 => '4'
  | 5 => '5'
  | 6 => '6'
  | 7 => '7'
  | 8 => '8'
  | 9 => '9'
  | _ => '*'

/-- Numeric value of a decimal digit character (10 for non-digits). -/
def charDigitVal (c : Char) : Nat :=
  if c = '0' then 0
  else if c = '1' then 1
  else if c = '2' then 2
  else if c = '3' then 3
  else if c = '4' then 4
  else if c = '5' then 5
  else if c = '6' then 6
  else if c = '7' then 7
  else if c = '8' then 8
  else if c = '9' then 9
  else 10

def isDigitCh (c : Char) : Bool := charDigitVal c < 10

theorem digit_cases {c : Char} (h : isDigitCh c = true) :
    c = '0' ∨ c = '1' ∨ c = '2' ∨ c = '3' ∨ c = '4' ∨ c = '5' ∨ c = '6' ∨
    c = '7' ∨ c = '8' ∨ c = '9' := by
  simp only [isDigitCh, charDigitVal, decide_eq_true_eq] at h
  split_ifs at h with h0 h1 h2 h3 h4 h5 h6 h7 h8 h9
  · exact Or.inl h0
  · exact Or.inr (Or.inl h1)
  · exact Or.inr (Or.inr (Or.inl h2))
  · exact Or.inr (Or.inr (Or.inr (Or.inl h3)))
  · exact Or.inr (Or.inr (Or.inr (Or.inr (Or.inl h4))))
  · exact Or.inr (Or.inr (Or.inr (Or.inr (Or.inr (Or.inl h5)))))
  · exact Or.inr (Or.inr (Or.inr (Or.inr (Or.inr (Or.inr (Or.inl h6))))))
  · exact Or.inr (Or.inr (Or.inr (Or.inr (Or.inr (Or.inr (Or.inr (Or.inl h7)))))))
  · exact Or.inr (Or.inr (Or.inr (Or.inr (Or.inr (Or.inr (Or.inr (Or.inr (Or.inl h8))))))))
  · exact Or.inr (Or.inr (Or.inr (Or.inr (Or.inr (Or.inr (Or.inr (Or.inr (Or.inr h9))))))))
  · omega

theorem digit_round {d : Nat} (h : d < 10) : charDigitVal (digitChar d) = d := by
  interval_cases d <;> decide

theorem digitChar_is_digit {d : Nat} (h : d < 10) : isDigitCh (digitChar d) = true := by
  interval_cases d <;> decide

theorem char_round {c : Char} (h : isDigitCh c = true) :
    digitChar (charDigitVal c) = c := by
  rcases digit_cases h with rfl | rfl | rfl | rfl | rfl | rfl | rfl | rfl | rfl | rfl <;> decide

theorem charDigitVal_lt {c : Char} (h : isDigitCh c = true) : charDigitVal c < 10 := by
  simpa [isDigitCh] using h

theorem digit_lt_iff {c d : Char} (hc : isDigitCh c = true) (hd : isDigitCh d = true) :
    c.toNat < d.toNat ↔ charDigitVal c < charDigitVal d := by
  rcases digit_cases hc with rfl | rfl | rfl | rfl | rfl | rfl | rfl | rfl | rfl | rfl <;>
    rcases digit_cases hd with rfl | rfl | rfl | rfl | rfl | rfl | rfl | rfl | rfl | rfl <;>
      decide

theorem digit_eq_iff {c d : Char} (hc : isDigitCh c = true) (hd : isDigitCh d = true) :
    c = d ↔ charDigitVal c = charDigitVal d := by
  rcases digit_cases hc with rfl | rfl | rfl | rfl | rfl | rfl | rfl | rfl | rfl | rfl <;>
    rcases digit_cases hd with rfl | rfl | rfl | rfl | rfl | rfl | rfl | rfl | rfl | rfl <;>
      decide

/-- Value of a decimal digit string, accumulator form (Python int parsing core). -/
def valDAux (acc : Nat) : Chars → Nat
  | [] => acc
  | c :: rest => valDAux (10 * acc + charDigitVal c) rest

def valD (l : Chars) : Nat := valDAux 0 l

theorem valDAux_eq (l : Chars) : ∀ acc, valDAux acc l = acc * 10 ^ l.length + valD l := by
  induction l with
  | nil => intro acc; simp [valDAux, valD]
  | cons c rest ih =>
    intro acc
    show valDAux (10 * acc + charDigitVal c) rest
        = acc * 10 ^ (rest.length + 1) + valD (c :: rest)
    rw [ih]
    show (10 * acc + charDigitVal c) * 10 ^ rest.length + valD rest
        = acc * 10 ^ (rest.length + 1) + valDAux (10 * 0 + charDigitVal c) rest
    rw [ih]
    ring

theorem valD_cons (c : Char) (rest : Chars) :
    valD (c :: rest) = charDigitVal c * 10 ^ rest.length + valD rest := by
  show valDAux (10 * 0 + charDigitVal c) rest = _
  rw [valDAux_eq]
  ring

theorem valD_lt {l : Chars} (h : ∀ c ∈ l, isDigitCh c = true) :
    valD l < 10 ^ l.length := by
  induction l with
  | nil => simp [valD, valDAux]
  | cons c rest ih =>
    have hc := charDigitVal_lt (h c (by simp))
    have hr := ih (fun x hx => h x (by simp [hx]))
    rw [valD_cons]
    calc charDigitVal c * 10 ^ rest.length + valD rest
        < charDigitVal c * 10 ^ rest.length + 10 ^ rest.length := by omega
      _ = (charDigitVal c + 1) * 10 ^ rest.length := by ring
      _ ≤ 10 * 10 ^ rest.length := by
          exact Nat.mul_le_mul_right _ (by omega)
      _ = 10 ^ (rest.length + 1) := by ring

/-- Big-endian fixed-width decimal rendering of a natural number. -/
def digitsBE : Nat → Nat → Chars
  | 0, _ => []
  | k + 1, n => digitChar (n / 10 ^ k) :: digitsBE k (n % 10 ^ k)

theorem length_digitsBE (k n : Nat) : (digitsBE k n).length = k := by
  induction k generalizing n with
  | zero => rfl
  | succ k ih => simp [digitsBE, ih]

theorem digitsBE_all_digit {k n : Nat} (h : n < 10 ^ k) :
    ∀ c ∈ digitsBE k n, isDigitCh c = true := by
  induction k generalizing n with
  | zero => simp [digitsBE]
  | succ k ih =>
    intro c hc
    have hdiv : n / 10 ^ k < 10 := by
      apply Nat.div_lt_of_lt_mul
      calc n < 10 ^ (k + 1) := h
        _ = 10 ^ k * 10 := by ring
    have hmod : n % 10 ^ k < 10 ^ k := Nat.mod_lt _ (Nat.pos_pow_of_pos _ (by omega))
    simp only [digitsBE, List.mem_cons] at hc
    rcases hc with rfl | hc
    · exact digitChar_is_digit hdiv
    · exact ih hmod c hc

theorem valD_digitsBE {k n : Nat} (h : n < 10 ^ k) : valD (digitsBE k n) = n := by
  induction k generalizing n with
  | zero =>
    simp only [Nat.pow_zero, Nat.lt_one_iff] at h
    simp [digitsBE, valD, valDAux, h]
  | succ k ih =>
    have hdiv : n / 10 ^ k < 10 := by
      apply Nat.div_lt_of_lt_mul
      calc n < 10 ^ (k + 1) := h
        _ = 10 ^ k * 10 := by ring
    have hmod : n % 10 ^ k < 10 ^ k := Nat.mod_lt _ (Nat.pos_pow_of_pos _ (by omega))
    simp only [digitsBE]
    rw [valD_cons, digit_round hdiv, length_digitsBE, ih hmod]
    exact Nat.div_add_mod' n (10 ^ k)

theorem digitsBE_of_valD {l : Chars} (h : ∀ c ∈ l, isDigitCh c = true) :
    digitsBE l.length (valD l) = l := by
  induction l with
  | nil => rfl
  | cons c rest ih =>
    have hc : isDigitCh c = true := h c (by simp)
    have hrest : ∀ x ∈ rest, isDigitCh x = true := fun x hx => h x (by simp [hx])
    have hvr : valD rest < 10 ^ rest.length := valD_lt hrest
    have hv : valD (c :: rest) = charDigitVal c * 10 ^ rest.length + valD rest :=
      valD_cons c rest
    have hP : 0 < 10 ^ rest.length := Nat.pos_pow_of_pos _ (by omega)
    have hdiv : valD (c :: rest) / 10 ^ rest.length = charDigitVal c := by
      rw [hv, Nat.add_comm, Nat.mul_comm, Nat.add_mul_div_left _ _ hP,
        Nat.div_eq_of_lt hvr, Nat.zero_add]
    have hmod : valD (c :: rest) % 10 ^ rest.length = valD rest := by
      rw [hv, Nat.add_comm, Nat.mul_comm, Nat.add_mul_mod_self_left]
      exact Nat.mod_eq_of_lt hvr
    show digitsBE (rest.length + 1) (valD (c :: rest)) = c :: rest
    simp only [digitsBE, hdiv, hmod, char_round hc, ih hrest]

/-- For equal-length digit strings, lexicographic order is numeric order. -/
theorem lexLt_digits {a : Chars} : ∀ {b : Chars}, a.length = b.length →
    (∀ c ∈ a, isDigitCh c = true) → (∀ c ∈ b, isDigitCh c = true) →
    (lexLt a b = true ↔ valD a < valD b) := by
  induction a with
  | nil =>
    intro b hlen _ _
    cases b with
    | nil => simp [lexLt, valD, valDAux]
    | cons y ys => simp at hlen
  | cons x xs ih =>
    intro b hlen ha hb
    cases b with
    | nil => simp at hlen
    | cons y ys =>
      simp only [List.length_cons, Nat.succ.injEq] at hlen
      have hx : isDigitCh x = true := ha x (by simp)
      have hy : isDigitCh y = true := hb y (by simp)
      have hxs : ∀ c ∈ xs, isDigitCh c = true := fun c hc => ha c (by simp [hc])
      have hys : ∀ c ∈ ys, isDigitCh c = true := fun c hc => hb c (by simp [hc])
      have hvx : valD xs < 10 ^ xs.length := valD_lt hxs
      have hvy : valD ys < 10 ^ ys.length := valD_lt hys
      rw [valD_cons, valD_cons, ← hlen]
      by_cases h1 : x.toNat < y.toNat
      · have hlt : charDigitVal x < charDigitVal y := (digit_lt_iff hx hy).mp h1
        have : lexLt (x :: xs) (y :: ys) = true := lexLt_cons_of_lt _ _ h1
        rw [this]
        simp only [true_iff]
        calc charDigitVal x * 10 ^ xs.length + valD xs
            < charDigitVal x * 10 ^ xs.length + 10 ^ xs.length := by omega
          _ = (charDigitVal x + 1) * 10 ^ xs.length := by ring
          _ ≤ charDigitVal y * 10 ^ xs.length := Nat.mul_le_mul_right _ (by omega)
          _ ≤ charDigitVal y * 10 ^ xs.length + valD ys := by omega
      · by_cases h2 : x = y
        · subst h2
          have hstep : lexLt (x :: xs) (x :: ys) = lexLt xs ys := by
            show (if x.toNat < x.toNat then true
                  else if x = x then lexLt xs ys else false) = lexLt xs ys
            rw [if_neg (lt_irrefl x.toNat), if_pos rfl]
          rw [hstep, ih hlen hxs hys]
          omega
        · have hlt : charDigitVal y < charDigitVal x := by
            rcases Nat.lt_trichotomy (charDigitVal x) (charDigitVal y) with h | h | h
            · exact absurd ((digit_lt_iff hx hy).mpr h) h1
            · exact absurd ((digit_eq_iff hx hy).mpr h) h2
            · exact h
          have hfalse : lexLt (x :: xs) (y :: ys) = false := by
            show (if x.toNat < y.toNat then true
                  else if x = y then lexLt xs ys else false) = false
            rw [if_neg h1, if_neg h2]
          rw [hfalse]
          simp only [Bool.false_eq_true, false_iff, not_lt]
          calc charDigitVal y * 10 ^ xs.length + valD ys
              ≤ charDigitVal y * 10 ^ xs.length + 10 ^ xs.length := by
                rw [hlen]; omega
            _ = (charDigitVal y + 1) * 10 ^ xs.length := by ring
            _ ≤ charDigitVal x * 10 ^ xs.length := Nat.mul_le_mul_right _ (by omega)
            _ ≤ charDigitVal x * 10 ^ xs.length + valD xs := by omega

/-- Number of decimal digits, fuel-bounded so the kernel can evaluate it. -/
def digLenAux : Nat → Nat → Nat
  | 0, _ => 1
  | fuel + 1, n => if n < 10 then 1 else 1 + digLenAux fuel (n / 10)

def digLen (n : Nat) : Nat := digLenAux n n

theorem digLenAux_pos (fuel n : Nat) : 1 ≤ digLenAux fuel n := by
  cases fuel with
  | zero => simp [digLenAux]
  | succ fuel =>
    simp only [digLenAux]
    split <;> omega

theorem digLenAux_spec : ∀ fuel n, n ≤ fuel →
    n < 10 ^ digLenAux fuel n ∧ (1 ≤ n → 10 ^ (digLenAux fuel n - 1) ≤ n) := by
  intro fuel
  induction fuel with
  | zero =>
    intro n hn
    have : n = 0 := by omega
    subst this
    simp [digLenAux]
  | succ fuel ih =>
    intro n hn
    by_cases h10 : n < 10
    · simp only [digLenAux, if_pos h10]
      constructor
      · simpa using h10
      · intro h1; simpa using h1
    · simp only [digLenAux, if_neg h10]
      have hrec : n / 10 ≤ fuel := by
        have : n / 10 < n := Nat.div_lt_self (by omega) (by omega)
        omega
      obtain ⟨ih1, ih2⟩ := ih (n / 10) hrec
      have hd := digLenAux_pos fuel (n / 10)
      constructor
      · have h1 : n < 10 * (n / 10) + 10 := by
          have := Nat.div_add_mod n 10
          have := Nat.mod_lt n (show 0 < 10 by omega)
          omega
        calc n < 10 * (n / 10) + 10 := h1
          _ = 10 * (n / 10 + 1) := by ring
          _ ≤ 10 * 10 ^ digLenAux fuel (n / 10) := by
              exact Nat.mul_le_mul_left _ (by omega)
          _ = 10 ^ (1 + digLenAux fuel (n / 10)) := by
              rw [Nat.pow_add, Nat.pow_one]
      · intro _
        have h1 : 1 ≤ n / 10 := Nat.one_le_div_iff (by omega) |>.mpr (by omega)
        have h2 : 10 ^ (digLenAux fuel (n / 10) - 1) ≤ n / 10 := ih2 h1
        have h3 : 1 + digLenAux fuel (n / 10) - 1 = 1 + (digLenAux fuel (n / 10) - 1) := by
          omega
        rw [h3, Nat.pow_add, Nat.pow_one]
        calc 10 * 10 ^ (digLenAux fuel (n / 10) - 1)
            ≤ 10 * (n / 10) := Nat.mul_le_mul_left _ h2
          _ ≤ n := Nat.mul_div_le n 10

theorem digLen_spec (n : Nat) :
    n < 10 ^ digLen n ∧ (1 ≤ n → 10 ^ (digLen n - 1) ≤ n) :=
  digLenAux_spec n n (le_refl n)

/-- Python str(n) for a natural number. -/
def natToStr (n : Nat) : Chars := digitsBE (digLen n) n

/-- Python str(i) for an integer. -/
def intToStr (i : Int) : Chars :=
  if i < 0 then '-' :: natToStr (-i).toNat else natToStr i.toNat

theorem natToStr_all_digit (n : Nat) : ∀ c ∈ natToStr n, isDigitCh c = true :=
  digitsBE_all_digit (digLen_spec n).1

theorem length_natToStr (n : Nat) : (natToStr n).length = digLen n :=
  length_digitsBE _ _

theorem valD_natToStr (n : Nat) : valD (natToStr n) = n :=
  valD_digitsBE (digLen_spec n).1

/-- A positive number renders with a nonzero leading digit. -/
theorem natToStr_head (n : Nat) (h : 1 ≤ n) :
    ∃ d rest, natToStr n = digitChar d :: rest ∧ 1 ≤ d ∧ d < 10 ∧
      rest = digitsBE (digLen n - 1) (n % 10 ^ (digLen n - 1)) := by
  obtain ⟨h1, h2⟩ := digLen_spec n
  have hp := digLenAux_pos n n
  have hlen : digLen n = (digLen n - 1) + 1 := by
    have : 1 ≤ digLen n := hp
    omega
  refine ⟨n / 10 ^ (digLen n - 1), digitsBE (digLen n - 1) (n % 10 ^ (digLen n - 1)),
    ?_, ?_, ?_, rfl⟩
  · rw [show natToStr n = digitsBE (digLen n) n from rfl, hlen]
    rfl
  · exact Nat.one_le_div_iff (Nat.pos_pow_of_pos _ (by omega)) |>.mpr (h2 h)
  · apply Nat.div_lt_of_lt_mul
    calc n < 10 ^ digLen n := h1
      _ = 10 ^ ((digLen n - 1) + 1) := by rw [← hlen]
      _ = 10 ^ (digLen n - 1) * 10 := by rw [Nat.pow_succ]

/-- Characters Python int() treats as strippable whitespace (model). -/
def isSpaceCh (c : Char) : Bool := c = ' ' || c = '\t' || c = '\n' || c = '\r'

/-- Python str.strip() (model: ASCII whitespace). -/
def trimSp (l : Chars) : Chars :=
  ((l.dropWhile isSpaceCh).reverse.dropWhile isSpaceCh).reverse

/-- Value of a nonempty all-digit string, else none. -/
def digitsVal (l : Chars) : Option Nat :=
  if l ≠ [] ∧ l.all isDigitCh then some (valD l) else none

/-- Python int(s): strip whitespace, optional sign, decimal digits.
Raises ValueError (none) otherwise. -/
def parseIntPy (l : Chars) : Option Int :=
  match trimSp l with
  | [] => none
  | c :: rest =>
    if c = '-' then (digitsVal rest).map (fun n => -(n : Int))
    else if c = '+' then (digitsVal rest).map (fun n => (n : Int))
    else (digitsVal (c :: rest)).map (fun n => (n : Int))

theorem dropWhile_digits {l : Chars} (h : ∀ c ∈ l, isDigitCh c = true) :
    l.dropWhile isSpaceCh = l := by
  cases l with
  | nil => rfl
  | cons c rest =>
    have hc := h c (by simp)
    have : isSpaceCh c = false := by
      rcases digit_cases hc with rfl | rfl | rfl | rfl | rfl | rfl | rfl | rfl | rfl | rfl <;>
        decide
    simp [List.dropWhile_cons, this]

theorem trimSp_digits {l : Chars} (h : ∀ c ∈ l, isDigitCh c = true) :
    trimSp l = l := by
  unfold trimSp
  rw [dropWhile_digits h, dropWhile_digits (by simpa using fun c hc => h c hc),
    List.reverse_reverse]

theorem parseIntPy_digits {l : Chars} (hne : l ≠ [])
    (h : ∀ c ∈ l, isDigitCh c = true) : parseIntPy l = some ((valD l : Nat) : Int) := by
  have hdv : digitsVal l = some (valD l) := by
    unfold digitsVal
    rw [if_pos ⟨hne, by rw [List.all_eq_true]; exact h⟩]
  cases l with
  | nil => exact absurd rfl hne
  | cons c rest =>
    have hc := h c (by simp)
    have hcm : c ≠ '-' ∧ c ≠ '+' := by
      rcases digit_cases hc with rfl | rfl | rfl | rfl | rfl | rfl | rfl | rfl | rfl | rfl <;>
        exact ⟨by decide, by decide⟩
    have ht : trimSp (c :: rest) = c :: rest := trimSp_digits h
    unfold parseIntPy
    rw [ht]
    simp [if_neg hcm.1, if_neg hcm.2, hdv]

def hexChars : Chars :=
  '0' :: '1' :: '2' :: '3' :: '4' :: '5' :: '6' :: '7' :: '8' :: '9' ::
    'a' :: 'b' :: 'c' :: 'd' :: 'e' :: 'f' :: []

def isHexCh (c : Char) : Bool := decide (c ∈ hexChars)

/-- Lowercasing of the hex letters accepted by Python uuid.UUID. -/
def lowerHex (c : Char) : Char :=
  if c = 'A' then 'a'
  else if c = 'B' then 'b'
  else if c = 'C' then 'c'
  else if c = 'D' then 'd'
  else if c = 'E' then 'e'
  else if c = 'F' then 'f'
  else c

/-- Python uuid.UUID(s), modelled as producing the value of the resulting
UUID's .hex accessor: hyphens are removed and hex digits lowercased; any
other shape raises ValueError (none). (The urn:/brace forms accepted by
the Python constructor never occur in this system and are not modelled.) -/
def uuidHexRaw (l : Chars) : Chars := (l.filter (fun c => c ≠ '-')).map lowerHex

def uuidParse (l : Chars) : Option Chars :=
  if (uuidHexRaw l).length = 32 ∧ (uuidHexRaw l).all isHexCh then some (uuidHexRaw l)
  else none

/-- Canonical hyphenated text of a 32-hex-digit uuid (str(uuid.UUID(...))). -/
def hyphenate (h : Chars) : Chars :=
  h.take 8 ++
    ('-' :: ((h.drop 8).take 4 ++
      ('-' :: ((h.drop 12).take 4 ++
        ('-' :: ((h.drop 16).take 4 ++
          ('-' :: h.drop 20)))))))

/-- normalize_id from src/tests/db.py:89: str(uuid.UUID(ident)), ValueError
on an invalid id. -/
def normalizeId (l : Chars) : Option Chars := (uuidParse l).map hyphenate

/-- A string that is the canonical hyphenated lowercase text of some uuid. -/
def isCanonicalUuid (l : Chars) : Bool :=
  match uuidParse l with
  | some h => decide (hyphenate h = l)
  | none => false

theorem uuidParse_props {l t : Chars} (h : uuidParse l = some t) :
    t.length = 32 ∧ ∀ c ∈ t, isHexCh c = true := by
  unfold uuidParse at h
  split_ifs at h with hcond
  cases h
  exact ⟨hcond.1, by simpa [List.all_eq_true] using hcond.2⟩

theorem isCanonicalUuid_elim {l : Chars} (h : isCanonicalUuid l = true) :
    ∃ t, uuidParse l = some t ∧ hyphenate t = l := by
  unfold isCanonicalUuid at h
  cases hp : uuidParse l with
  | none => rw [hp] at h; simp at h
  | some t =>
    rw [hp] at h
    simp only [decide_eq_true_eq] at h
    exact ⟨t, rfl, h⟩

theorem mem_hyphenate {x : Char} {h : Chars} (hx : x ∈ hyphenate h) :
    x = '-' ∨ x ∈ h := by
  unfold hyphenate at hx
  simp only [List.mem_append, List.mem_cons] at hx
  rcases hx with hx | rfl | hx | rfl | hx | rfl | hx | rfl | hx
  · exact Or.inr (List.take_subset _ _ hx)
  · exact Or.inl rfl
  · exact Or.inr (List.drop_subset _ _ (List.take_subset _ _ hx))
  · exact Or.inl rfl
  · exact Or.inr (List.drop_subset _ _ (List.take_subset _ _ hx))
  · exact Or.inl rfl
  · exact Or.inr (List.drop_subset _ _ (List.take_subset _ _ hx))
  · exact Or.inl rfl
  · exact Or.inr (List.drop_subset _ _ hx)

theorem canonical_chars {l : Chars} (h : isCanonicalUuid l = true) :
    ∀ x ∈ l, x = '-' ∨ isHexCh x = true := by
  obtain ⟨t, hp, hh⟩ := isCanonicalUuid_elim h
  obtain ⟨_, hhex⟩ := uuidParse_props hp
  intro x hx
  rw [← hh] at hx
  rcases mem_hyphenate hx with rfl | hmem
  · exact Or.inl rfl
  · exact Or.inr (hhex x hmem)

theorem hex_cases {c : Char} (h : isHexCh c = true) :
    c = '0' ∨ c = '1' ∨ c = '2' ∨ c = '3' ∨ c = '4' ∨ c = '5' ∨ c = '6' ∨
    c = '7' ∨ c = '8' ∨ c = '9' ∨ c = 'a' ∨ c = 'b' ∨ c = 'c' ∨ c = 'd' ∨
    c = 'e' ∨ c = 'f' := by
  simpa [isHexCh, hexChars] using h

theorem hex_ne_colon {c : Char} (h : isHexCh c = true) : c ≠ ':' := by
  rcases hex_cases h with rfl | rfl | rfl | rfl | rfl | rfl | rfl | rfl | rfl | rfl |
    rfl | rfl | rfl | rfl | rfl | rfl <;> decide

theorem hex_lt_z {c : Char} (h : isHexCh c = true) : c.toNat < 'z'.toNat := by
  rcases hex_cases h with rfl | rfl | rfl | rfl | rfl | rfl | rfl | rfl | rfl | rfl |
    rfl | rfl | rfl | rfl | rfl | rfl <;> decide

theorem hex_gt_space {c : Char} (h : isHexCh c = true) : ' '.toNat < c.toNat := by
  rcases hex_cases h with rfl | rfl | rfl | rfl | rfl | rfl | rfl | rfl | rfl | rfl |
    rfl | rfl | rfl | rfl | rfl | rfl <;> decide

theorem canonical_no_colon {l : Chars} (h : isCanonicalUuid l = true) :
    l.all (fun c => c ≠ ':') = true := by
  rw [List.all_eq_true]
  intro c hc
  rcases canonical_chars h c hc with rfl | hx
  · decide
  · simpa using hex_ne_colon hx

theorem canonical_head_hex {l : Chars} (h : isCanonicalUuid l = true) :
    ∃ c rest, l = c :: rest ∧ isHexCh c = true := by
  obtain ⟨t, hp, hh⟩ := isCanonicalUuid_elim h
  obtain ⟨hlen, hhex⟩ := uuidParse_props hp
  cases t with
  | nil => simp at hlen
  | cons c ts =>
    refine ⟨c, ts.take 7 ++
      ('-' :: (((c :: ts).drop 8).take 4 ++
        ('-' :: (((c :: ts).drop 12).take 4 ++
          ('-' :: (((c :: ts).drop 16).take 4 ++
            ('-' :: (c :: ts).drop 20))))))), ?_, hhex c (by simp)⟩
    rw [← hh]
    rfl

/-- Python exception kinds raised by the embedded code. The spec calls the
malformed-sort-key failure ParseError; in Python it surfaces as ValueError. -/
inductive PyErr where
  | attributeError
  | parseError
deriving DecidableEq

instance {ε α : Type} [DecidableEq ε] [DecidableEq α] : DecidableEq (Except ε α)
  | .error a, .error b =>
    if h : a = b then isTrue (congrArg Except.error h)
    else isFalse (fun hc => h (Except.error.inj hc))
  | .error _, .ok _ => isFalse (fun hc => Except.noConfusion hc)
  | .ok _, .error _ => isFalse (fun hc => Except.noConfusion hc)
  | .ok a, .ok b =>
    if h : a = b then isTrue (congrArg Except.ok h)
    else isFalse (fun hc => h (Except.ok.inj hc))

/-- Result dict of WebPushNotification.parse_sort_key. -/
structure SortKeyInfo where
  api_ver : Chars
  channel_id : Chars
  topic : Option Chars
  message_id : Option Chars
  sortkey_timestamp : Option Int
deriving DecidableEq

/-- WebPushNotification.parse_sort_key (src/tests/db.py:141-162): dispatch
on the version prefix of the sort key; a wrong part count or non-numeric
timestamp raises (ValueError from tuple unpacking or int()). -/
def parseSK (k : Chars) : Except PyErr SortKeyInfo :=
  if startsW (str "01:") k then
    match splitCh k with
    | [v, c, t] => .ok ⟨v, c, some t, none, none⟩
    | _ => .error .parseError
  else if startsW (str "02:") k then
    match splitCh k with
    | [v, raw, c] =>
      match parseIntPy raw with
      | some n => .ok ⟨v, c, none, none, some n⟩
      | none => .error .parseError
    | _ => .error .parseError
  else
    match splitCh k with
    | [c, m] => .ok ⟨str "00", c, none, some m, none⟩
    | _ => .error .parseError

/-- WebPushNotification (src/tests/db.py:107-139), an attrs class with
slots=True. uaid and channel_id hold uuid.UUID values (embedded as their
32-hex form); timestamp may hold None when rebuilt from a table item. -/
structure WebPushNotification where
  uaid : Chars
  channel_id : Chars
  ttl : Int
  data : Option Chars := none
  headers : Option (List (Chars × Chars)) := none
  timestamp : Option Int := none
  sortkey_timestamp : Option Int := none
  topic : Option Chars := none
  source : Option Chars := some (str "Direct")
  message_id : Option Chars := none
  update_id : Option Chars := none
  legacy : Bool := false
deriving DecidableEq

/-- Python attribute values, as needed for the attribute-lookup model. -/
inductive PyVal where
  | vNone
  | vStr (s : Chars)
  | vInt (i : Int)
  | vBool (b : Bool)
  | vUuid (u : Chars)
  | vDict (d : List (Chars × Chars))
deriving DecidableEq

def optStrV : Option Chars → PyVal
  | none => .vNone
  | some s => .vStr s

def optIntV : Option Int → PyVal
  | none => .vNone
  | some i => .vInt i

/-- Python attribute lookup on a WebPushNotification instance. The class
is declared with @attrs(slots=True) and exactly these twelve attributes
(src/tests/db.py:122-139 plus the two methods); slots=True means access to
any other name raises AttributeError (none). -/
def wpnAttr (n : WebPushNotification) (name : Chars) : Option PyVal :=
  if name = str "uaid" then some (.vUuid n.uaid)
  else if name = str "channel_id" then some (.vUuid n.channel_id)
  else if name = str "ttl" then some (.vInt n.ttl)
  else if name = str "data" then some (optStrV n.data)
  else if name = str "headers" then
    some (match n.headers with | none => .vNone | some d => .vDict d)
  else if name = str "timestamp" then some (optIntV n.timestamp)
  else if name = str "sortkey_timestamp" then some (optIntV n.sortkey_timestamp)
  else if name = str "topic" then some (optStrV n.topic)
  else if name = str "source" then some (optStrV n.source)
  else if name = str "message_id" then some (optStrV n.message_id)
  else if name = str "update_id" then some (optStrV n.update_id)
  else if name = str "legacy" then some (.vBool n.legacy)
  else none

/-- A row of the DynamoDB message table. chids is the string-set attribute
of the channel-metadata row; DynamoDB cannot store an empty set, so the
empty list doubles as attribute-absent. Other optional attributes use
Option. -/
structure Item where
  uaid : Chars
  chidmessageid : Chars
  chids : List Chars := []
  expiry : Option Int := none
  current_timestamp : Option Int := none
  headers : Option (List (Chars × Chars)) := none
  data : Option Chars := none
  ttl : Option Int := none
  timestamp : Option Int := none
  updateid : Option Chars := none
deriving DecidableEq

abbrev Store := List Item

/-- DynamoDB get_item: at most one row per (partition key, sort key). -/
def getItem : Store → Chars → Chars → Option Item
  | [], _, _ => none
  | i :: rest, pu, k =>
    if i.uaid = pu ∧ i.chidmessageid = k then some i else getItem rest pu k

/-- DynamoDB put_item: replace the row with the same key, else insert. -/
def put_item : Store → Item → Store
  | [], it => [it]
  | i :: rest, it =>
    if i.uaid = it.uaid ∧ i.chidmessageid = it.chidmessageid then it :: rest
    else i :: put_item rest it

/-- DynamoDB delete_item without condition: remove the row with the key. -/
def removeItem : Store → Chars → Chars → Store
  | [], _, _ => []
  | i :: rest, pu, k =>
    if i.uaid = pu ∧ i.chidmessageid = k then removeItem rest pu k
    else i :: removeItem rest pu k

/-- Set-ADD of one channel id into a DynamoDB string set. -/
def addSet (c : Chars) (l : List Chars) : List Chars :=
  if c ∈ l then l else l ++ [c]

/-- update_item with UpdateExpression "ADD chids :channel_id SET
expiry = :expiry": modify the addressed row, creating it if absent. -/
def updateAddChid : Store → Chars → Chars → Chars → Int → Store
  | [], pu, k, c, e => [{ uaid := pu, chidmessageid := k, chids := [c], expiry := some e }]
  | i :: rest, pu, k, c, e =>
    if i.uaid = pu ∧ i.chidmessageid = k then
      { i with chids := addSet c i.chids, expiry := some e } :: rest
    else i :: updateAddChid rest pu k c e

/-- update_item with UpdateExpression "SET current_timestamp=:timestamp,
expiry=:expiry": modify the addressed row, creating it if absent. -/
def updateSetCT : Store → Chars → Chars → Int → Int → Store
  | [], pu, k, ts, e =>
    [{ uaid := pu, chidmessageid := k, current_timestamp := some ts, expiry := some e }]
  | i :: rest, pu, k, ts, e =>
    if i.uaid = pu ∧ i.chidmessageid = k then
      { i with current_timestamp := some ts, expiry := some e } :: rest
    else i :: updateSetCT rest pu k ts e

/-- Ascending insertion by sort key (DynamoDB returns range keys in
ascending string order). -/
def insertByKey (x : Item) : List Item → List Item
  | [] => [x]
  | y :: ys =>
    if lexLt x.chidmessageid y.chidmessageid then x :: y :: ys
    else y :: insertByKey x ys

def sortByKey (l : List Item) : List Item := l.foldr insertByKey []

/-- DynamoDB query: rows of one partition whose sort key satisfies the
key condition, in ascending sort-key order, at most limit rows. -/
def queryAsc (s : Store) (pu : Chars) (cond : Chars → Bool) (limit : Nat) : List Item :=
  (sortByKey (s.filter (fun i => decide (i.uaid = pu) && cond i.chidmessageid))).take limit

/-- Max DynamoDB record lifespan, src/tests/db.py:194 (~30 days). -/
def MAX_EXPIRY : Int := 2592000

/-- hasher (src/tests/db.py:227-232): with the module default
key_hash = b"" (line 200) the HMAC branch is never taken, so hasher is the
identity on the uaid string. (The HMAC itself lives in hashlib and is not
modelled; no code in this repository assigns key_hash.) -/
def hasher (uaid : Chars) : Chars := uaid

/-- Python x or 0 for an int x. -/
def pyOrZero (i : Int) : Int := if i = 0 then 0 else i

theorem pyOrZero_eq (i : Int) : pyOrZero i = i := by
  unfold pyOrZero
  split_ifs with h
  · omega
  · rfl

/-- Modelled from the spec: the v02 timestamp segment is the zero-padded
19-digit decimal encoding (spec section 4.1: fixed width so lexicographic
order equals numeric order). The encoder itself is not in src/ (it is the
WebPushNotification.sort_key property of the production store, absent from
src/tests/db.py). -/
def pad19 (n : Nat) : Chars := digitsBE 19 n

/-- Modelled from the spec (section 4.1 Encode): v01 topic sort key
"01:" + channel_id + ":" + topic. -/
def encode_topic (chid topic : Chars) : Chars := str "01:" ++ chid ++ ':' :: topic

/-- Modelled from the spec (section 4.1 Encode): v02 timestamp sort key
"02:" + zero-padded 19-digit timestamp + ":" + channel_id. -/
def encode_timestamp (chid : Chars) (t : Nat) : Chars :=
  str "02:" ++ pad19 t ++ ':' :: chid

/-- Modelled from the spec: the sort_key encode property of a notification
(absent from src/tests/db.py, see wpnAttr): topic messages use the v01 key,
legacy ones chid:message_id, timestamped ones the v02 key; channel ids are
written in canonical hyphenated form (spec sections 4.1, 8). -/
def sort_key (n : WebPushNotification) : Chars :=
  match n.topic with
  | some t => encode_topic (hyphenate n.channel_id) t
  | none =>
    if n.legacy then hyphenate n.channel_id ++ ':' :: n.message_id.getD []
    else encode_timestamp (hyphenate n.channel_id) (n.sortkey_timestamp.getD 0).toNat

/-- The uuid.UUID(x) constructor applied to an arbitrary Python value:
a str argument is normalized (ValueError when malformed); any non-str
argument — in particular an existing uuid.UUID object — raises
AttributeError, because the constructor immediately calls .replace on its
hex argument and UUID objects have no such method. -/
def uuidPyCtor : PyVal → Except PyErr Chars
  | .vStr s =>
    match uuidParse s with
    | some h => .ok h
    | none => .error .parseError
  | _ => .error .attributeError

/-- WebPushNotification.from_message_table (src/tests/db.py:164-190).
The uaid argument is whatever Python value the caller passes (both fetch
paths pass their uuid.UUID object); line 174 applies uuid.UUID to it, so a
UUID-object argument raises AttributeError before channel_id is touched.
The item's updateid attribute is read through Item.updateid (attribute
absent and attribute None are conflated; store_message always writes the
attribute). parse_sort_key and uuid.UUID failures propagate. -/
def from_message_table (uaid : PyVal) (item : Item) :
    Except PyErr WebPushNotification :=
  match parseSK item.chidmessageid with
  | .error e => .error e
  | .ok ki =>
    match uuidPyCtor uaid with
    | .error e => .error e
    | .ok uu =>
      match uuidPyCtor (.vStr ki.channel_id) with
      | .error e => .error e
      | .ok cc =>
        .ok { uaid := uu
              channel_id := cc
              data := item.data
              headers := item.headers
              ttl := item.ttl.getD 0
              topic := ki.topic
              message_id :=
                if ki.api_ver = str "01" ∨ ki.api_ver = str "02" then item.updateid
                else ki.message_id
              update_id := item.updateid
              timestamp := item.timestamp
              sortkey_timestamp := ki.sortkey_timestamp
              source := some (str "Stored")
              legacy := decide (ki.api_ver = str "00") }

/-- List of from_message_table results; the first failing row's exception
propagates (the Python list comprehension raises). -/
def decodeAll (uaid : PyVal) : List Item → Except PyErr (List WebPushNotification)
  | [] => .ok []
  | i :: rest =>
    match from_message_table uaid i with
    | .error e => .error e
    | .ok n =>
      match decodeAll uaid rest with
      | .error e => .error e
      | .ok ns => .ok (n :: ns)

/-- Message.register_channel (src/tests/db.py:507-526): update_item on the
metadata row (hasher(uaid), " ") adding normalize_id(channel_id) to chids
and setting expiry = now + ttl (ttl defaulting to max_ttl). Returns the
updated store; none models the ValueError of normalize_id. -/
def register_channel (s : Store) (uaid chid : Chars) (ttl : Option Int) (now : Int) :
    Option Store :=
  match normalizeId chid with
  | none => none
  | some c => some (updateAddChid s (hasher uaid) (str " ") c (now + ttl.getD MAX_EXPIRY))

/-- Message.all_channels (src/tests/db.py:555-574): consistent get_item of
the metadata row keyed (hasher(uuid.UUID(uaid).hex), " "); a missing row is
(False, empty set), chids defaults to the empty set. The network-status
branch (HTTP != 200) is not modelled. -/
def all_channels (s : Store) (uaid : Chars) : Option (Bool × List Chars) :=
  match uuidParse uaid with
  | none => none
  | some hx =>
    match getItem s (hasher hx) (str " ") with
    | none => some (false, [])
    | some it => some (true, it.chids)

/-- The item dict built by Message.store_message (src/tests/db.py:589-604):
expiry = _expiry(min(ttl or 0, max_ttl)); data is only written when truthy. -/
def mkStoredItem (n : WebPushNotification) (now : Int) : Item :=
  { uaid := hasher n.uaid
    chidmessageid := sort_key n
    headers := n.headers
    ttl := some n.ttl
    timestamp := n.timestamp
    updateid := n.update_id
    expiry := some (now + min (pyOrZero n.ttl) MAX_EXPIRY)
    data := match n.data with | some d => if d = [] then none else some d | none => none }

/-- Message.store_message with the spec-modelled sort_key encoder. -/
def store_message (s : Store) (n : WebPushNotification) (now : Int) : Store :=
  put_item s (mkStoredItem n now)

def pyStrVal : PyVal → Chars
  | .vStr s => s
  | _ => []

/-- Message.store_message under literal Python attribute semantics: the
item dict reads notification.sort_key (line 595) through wpnAttr before
put_item can run. -/
def store_message_py (s : Store) (n : WebPushNotification) (now : Int) :
    Except PyErr Store :=
  match wpnAttr n (str "sort_key") with
  | none => .error .attributeError
  | some v =>
    .ok (put_item s { mkStoredItem n now with chidmessageid := pyStrVal v })

/-- Delete logic of Message.delete_message (src/tests/db.py:606-633) at a
given key: a truthy update_id issues a conditional delete (the stored
updateid attribute must exist and match; the ClientError of a failed
condition, including a missing row, is caught and returns False),
otherwise an unconditional delete; returns True on success. -/
def deleteMessageAt (s : Store) (pu k : Chars) (uid : Option Chars) : Store × Bool :=
  match uid with
  | some v =>
    if v = [] then (removeItem s pu k, true)
    else
      match getItem s pu k with
      | some it =>
        if it.updateid = some v then (removeItem s pu k, true)
        else (s, false)
      | none => (s, false)
  | none => (removeItem s pu k, true)

/-- Message.delete_message with the spec-modelled sort_key encoder. -/
def delete_message (s : Store) (n : WebPushNotification) : Store × Bool :=
  deleteMessageAt s (hasher n.uaid) (sort_key n) n.update_id

/-- Message.delete_message under literal Python attribute semantics: both
branches read notification.sort_key (lines 615, 630) while building the
delete key; the AttributeError is not a ClientError, so the except clause
does not catch it. -/
def delete_message_py (s : Store) (n : WebPushNotification) :
    Except PyErr (Store × Bool) :=
  match wpnAttr n (str "update_id") with
  | none => .error .attributeError
  | some _ =>
    match wpnAttr n (str "sort_key") with
    | none => .error .attributeError
    | some v => .ok (deleteMessageAt s (hasher n.uaid) (pyStrVal v) n.update_id)

def truthyInt : Option Int → Bool
  | none => false
  | some i => decide (i ≠ 0)

/-- Message.fetch_messages (src/tests/db.py:635-670): consistent range
query for sort key < "02" keyed by hasher(uaid.hex), at most limit rows;
results[0] is assumed to be the metadata row, its truthy current_timestamp
becomes last_position, and the remaining rows are decoded via
from_message_table — to which line 668 passes the uuid.UUID object itself
(here: PyVal.vUuid of its hex value). -/
def fetch_messages (s : Store) (uaid : Chars) (limit : Nat) :
    Except PyErr (Option Int × List WebPushNotification) :=
  match queryAsc s (hasher uaid) (fun k => lexLt k (str "02")) limit with
  | [] => (decodeAll (PyVal.vUuid uaid) []).map (fun ns => ((none : Option Int), ns))
  | r0 :: rest =>
    (decodeAll (PyVal.vUuid uaid) rest).map
      (fun ns =>
        (match r0.current_timestamp with
         | some ct => if ct = 0 then none else some ct
         | none => none,
         ns))

/-- Message.fetch_timestamp_messages (src/tests/db.py:672-712): lower
bound "02:" + str(timestamp) + ":z" for a truthy timestamp, else "01;";
consistent range query for sort key > bound keyed by hasher(uaid.hex), at
most limit rows; each row is decoded via from_message_table — to which
line 705 passes the uuid.UUID object itself (here: PyVal.vUuid of its hex
value); last_position is the sortkey_timestamp of the last returned
notification carrying a truthy one. -/
def fetch_timestamp_messages (s : Store) (uaid : Chars) (timestamp : Option Int)
    (limit : Nat) : Except PyErr (Option Int × List WebPushNotification) :=
  match decodeAll (PyVal.vUuid uaid)
      (queryAsc s (hasher uaid)
        (fun k => lexLt
          (match timestamp with
           | some ts => if ts = 0 then str "01;" else str "02:" ++ intToStr ts ++ str ":z"
           | none => str "01;") k)
        limit) with
  | .error e => .error e
  | .ok notifs =>
    .ok (((notifs.filter (fun n => truthyInt n.sortkey_timestamp)).getLast?).bind
        (fun n => n.sortkey_timestamp),
      notifs)

/-- Message.update_last_message_read (src/tests/db.py:714-728): update_item
on the metadata row setting current_timestamp and expiry = now + max_ttl. -/
def update_last_message_read (s : Store) (uaid : Chars) (ts : Int) (now : Int) : Store :=
  updateSetCT s (hasher uaid) (str " ") ts (now + MAX_EXPIRY)

/-- Proleptic Gregorian calendar date (Python datetime.date). -/
structure PDate where
  year : Int
  month : Nat
  day : Nat
deriving DecidableEq

def isLeap (y : Int) : Bool := y % 4 = 0 && (y % 100 ≠ 0 || y % 400 = 0)

def daysInMonth (y : Int) (m : Nat) : Nat :=
  if m = 2 then (if isLeap y then 29 else 28)
  else if m = 4 ∨ m = 6 ∨ m = 9 ∨ m = 11 then 30
  else 31

/-- date + timedelta(days=14) on a valid date (14 days never skip a whole
month, so at most one month boundary is crossed). -/
def plus14 (d : PDate) : PDate :=
  if d.day + 14 ≤ daysInMonth d.year d.month then ⟨d.year, d.month, d.day + 14⟩
  else if d.month = 12 then ⟨d.year + 1, 1, d.day + 14 - daysInMonth d.year 12⟩
  else ⟨d.year, d.month + 1, d.day + 14 - daysInMonth d.year d.month⟩

/-- date - timedelta(days=14) on a valid date. -/
def minus14 (d : PDate) : PDate :=
  if 14 < d.day then ⟨d.year, d.month, d.day - 14⟩
  else if d.month = 1 then ⟨d.year - 1, 12, daysInMonth (d.year - 1) 12 + d.day - 14⟩
  else ⟨d.year, d.month - 1, daysInMonth d.year (d.month - 1) + d.day - 14⟩

/-- The inner while loop of get_month (src/tests/db.py:218-222): step +-14
days until the month differs from last's month. Structural fuel stands in
for the while loop so the kernel can evaluate it; from any valid date the
loop exits within three steps (proved below), so 40 units of fuel are
never exhausted. -/
def bumpF (neg : Bool) : Nat → PDate → PDate → PDate
  | 0, _, cur => cur
  | fuel + 1, last, cur =>
    if cur.month = last.month then
      bumpF neg fuel last (if neg then minus14 cur else plus14 cur)
    else cur

/-- The outer for loop of get_month: after each bump, last is set to the
new date. -/
def monthLoop (neg : Bool) : Nat → PDate → PDate
  | 0, new => new
  | n + 1, new => monthLoop neg n (bumpF neg 40 new new)

/-- get_month (src/tests/db.py:207-224), with today passed explicitly. -/
def get_month (delta : Int) (today : PDate) : PDate :=
  monthLoop (decide (delta < 0)) delta.natAbs today

/-- Transcribed from the spec (section 4.1): the shape grammar of a
parseable sort key — "01:"-prefixed keys with exactly 3 colon parts,
"02:"-prefixed keys with exactly 3 parts and a numeric middle segment,
otherwise exactly 2 parts. Stated spec-side, to be compared with the
source's parse_sort_key. -/
def specGoodShape (k : Chars) : Bool :=
  if startsW (str "01:") k then (splitCh k).length = 3
  else if startsW (str "02:") k then
    match splitCh k with
    | [_, raw, _] => (parseIntPy raw).isSome
    | _ => false
  else (splitCh k).length = 2

/-- Well-formed sort keys as stored by this system: the metadata sentinel
" ", v01 topic keys with a canonical channel id, v02 keys with a 19-digit
zero-padded timestamp segment and canonical channel id, or legacy
chid:message_id keys with a canonical channel id. -/
def checkKey (k : Chars) : Bool :=
  k = str " " ||
  (match splitCh k with
   | [v, a, b] =>
     (v = str "01" && isCanonicalUuid a) ||
     (v = str "02" && a.length = 19 && a.all isDigitCh && isCanonicalUuid b)
   | [a, _] => isCanonicalUuid a
   | _ => false)

def wellFormedStore (s : Store) : Bool := s.all (fun i => checkKey i.chidmessageid)

/-- No two rows share a (partition key, sort key) pair. -/
def keysUnique : Store → Bool
  | [] => true
  | i :: rest =>
    rest.all (fun j => !(decide (j.uaid = i.uaid ∧ j.chidmessageid = i.chidmessageid))) &&
      keysUnique rest

theorem digit_ne_colon {c : Char} (h : isDigitCh c = true) : c ≠ ':' := by
  rcases digit_cases h with rfl | rfl | rfl | rfl | rfl | rfl | rfl | rfl | rfl | rfl <;> decide

theorem pad19_all_digit {t : Nat} (h : t < 10 ^ 19) :
    ∀ c ∈ pad19 t, isDigitCh c = true := digitsBE_all_digit h

theorem pad19_no_colon {t : Nat} (h : t < 10 ^ 19) :
    (pad19 t).all (fun c => c ≠ ':') = true := by
  rw [List.all_eq_true]
  intro c hc
  simpa using digit_ne_colon (pad19_all_digit h c hc)

theorem length_pad19 (t : Nat) : (pad19 t).length = 19 := length_digitsBE _ _

/-- C2: for every WebPushNotification value, store_message and
delete_message read the sort_key attribute, which the slots-declared class
does not define, so both raise AttributeError before any storage write is
issued; neither operation can ever complete. -/
theorem store_delete_always_attribute_error :
    ∀ (s : Store) (n : WebPushNotification) (now : Int),
      store_message_py s n now = Except.error PyErr.attributeError ∧
      delete_message_py s n = Except.error PyErr.attributeError := by
  intro s n now
  exact ⟨rfl, rfl⟩

/-- C5: parse_sort_key dispatches solely on the version prefix and accepts
exactly the three documented shapes — its success is equivalent to the
spec's shape grammar — and both parse("badkey") and parse("a:b:c:d") fail
with ParseError. -/
theorem parse_sort_key_dispatch :
    parseSK (str "badkey") = Except.error PyErr.parseError ∧
    parseSK (str "a:b:c:d") = Except.error PyErr.parseError ∧
    ∀ k : Chars, (parseSK k).isOk = specGoodShape k := by
  refine ⟨rfl, rfl, ?_⟩
  intro k
  unfold parseSK specGoodShape
  cases h1 : startsW (str "01:") k with
  | true =>
    simp only [if_pos rfl]
    rcases hs : splitCh k with _ | ⟨a, _ | ⟨b, _ | ⟨c, _ | ⟨d, e⟩⟩⟩⟩ <;>
      simp [hs, Except.isOk, Except.toBool]
  | false =>
    simp only [Bool.false_eq_true, if_false]
    cases h2 : startsW (str "02:") k with
    | true =>
      simp only [if_pos rfl]
      rcases hs : splitCh k with _ | ⟨a, _ | ⟨b, _ | ⟨c, _ | ⟨d, e⟩⟩⟩⟩
      · simp [hs, Except.isOk, Except.toBool]
      · simp [hs, Except.isOk, Except.toBool]
      · simp [hs, Except.isOk, Except.toBool]
      · cases hp : parseIntPy b <;> simp [hs, hp, Except.isOk, Except.toBool]
      · simp [hs, Except.isOk, Except.toBool]
    | false =>
      simp only [Bool.false_eq_true, if_false]
      rcases hs : splitCh k with _ | ⟨a, _ | ⟨b, _ | ⟨c, _ | ⟨d, e⟩⟩⟩⟩ <;>
        simp [hs, Except.isOk, Except.toBool]

/-- C9: parsing the v01 encoding "01:" + chid + ":" + topic of a valid
(colon-free canonical) channel id and colon-free topic yields exactly
api_ver "01", the channel id and the topic (round trip). -/
theorem encode_topic_round_trip (c t : Chars)
    (hc : isCanonicalUuid c = true) (ht : t.all (fun x => x ≠ ':') = true) :
    parseSK (encode_topic c t) =
      Except.ok ⟨str "01", c, some t, none, none⟩ := by
  have hcnc := canonical_no_colon hc
  have hshape : encode_topic c t = str "01" ++ ':' :: (c ++ ':' :: t) := rfl
  have hsplit : splitCh (encode_topic c t) = [str "01", c, t] := by
    rw [hshape, splitCh_append _ (by decide), splitCh_append _ hcnc, splitCh_no_colon ht]
  have hstart : startsW (str "01:") (encode_topic c t) = true := by
    have : encode_topic c t = str "01:" ++ (c ++ ':' :: t) := rfl
    rw [this]
    exact startsW_append _ _
  unfold parseSK
  rw [hstart, if_pos rfl, hsplit]

/-- C6: the v02 encoding round-trips its timestamp through parse, and the
lexicographic order of two encoded v02 keys agrees with the numeric order
of their (valid, 19-digit) timestamps. -/
theorem encode_timestamp_round_trip_mono (c1 c2 : Chars) (t1 t2 : Nat)
    (hc1 : isCanonicalUuid c1 = true) (hc2 : isCanonicalUuid c2 = true)
    (h1 : t1 < 10 ^ 19) (h2 : t2 < 10 ^ 19) :
    parseSK (encode_timestamp c1 t1) =
      Except.ok ⟨str "02", c1, none, none, some ((t1 : Nat) : Int)⟩ ∧
    (t1 < t2 → lexLt (encode_timestamp c1 t1) (encode_timestamp c2 t2) = true) := by
  constructor
  · have hcnc := canonical_no_colon hc1
    have hshape : encode_timestamp c1 t1 = str "02" ++ ':' :: (pad19 t1 ++ ':' :: c1) := rfl
    have hsplit : splitCh (encode_timestamp c1 t1) = [str "02", pad19 t1, c1] := by
      rw [hshape, splitCh_append _ (by decide), splitCh_append _ (pad19_no_colon h1),
        splitCh_no_colon hcnc]
    have hstart1 : startsW (str "01:") (encode_timestamp c1 t1) = false := rfl
    have hstart2 : startsW (str "02:") (encode_timestamp c1 t1) = true := rfl
    have hint : parseIntPy (pad19 t1) = some ((valD (pad19 t1) : Nat) : Int) :=
      parseIntPy_digits
        (by
          have := length_pad19 t1
          intro hnil
          rw [hnil] at this
          simp at this)
        (pad19_all_digit h1)
    have hval : valD (pad19 t1) = t1 := valD_digitsBE h1
    unfold parseSK
    rw [hstart1, if_neg (by simp), hstart2, if_pos rfl, hsplit]
    simp only [hint, hval]
  · intro hlt
    have hA : encode_timestamp c1 t1 = str "02:" ++ (pad19 t1 ++ ':' :: c1) := rfl
    have hB : encode_timestamp c2 t2 = str "02:" ++ (pad19 t2 ++ ':' :: c2) := rfl
    rw [hA, hB, lexLt_append_same]
    apply lexLt_append_of_lt
    · rw [length_pad19, length_pad19]
    · have hv1 : valD (pad19 t1) = t1 := valD_digitsBE h1
      have hv2 : valD (pad19 t2) = t2 := valD_digitsBE h2
      rw [lexLt_digits (by rw [length_pad19, length_pad19]) (pad19_all_digit h1)
        (pad19_all_digit h2), hv1, hv2]
      exact hlt

def uuidA : Chars := str "22222222-2222-2222-2222-222222222222"

def uuidB : Chars := str "33333333-3333-3333-3333-333333333333"

theorem encode_topic_round_trip_witness :
    parseSK (encode_topic uuidA (str "Inbox")) =
      Except.ok ⟨str "01", uuidA, some (str "Inbox"), none, none⟩ :=
  encode_topic_round_trip uuidA (str "Inbox") (by decide) (by decide)

theorem encode_timestamp_round_trip_mono_witness :
    parseSK (encode_timestamp uuidA 5) =
      Except.ok ⟨str "02", uuidA, none, none, some ((5 : Nat) : Int)⟩ ∧
    lexLt (encode_timestamp uuidA 5) (encode_timestamp uuidB 7) = true :=
  ⟨(encode_timestamp_round_trip_mono uuidA uuidB 5 7 (by decide) (by decide)
      (by decide) (by decide)).1,
   (encode_timestamp_round_trip_mono uuidA uuidB 5 7 (by decide) (by decide)
      (by decide) (by decide)).2 (by decide)⟩

/-- C8 (amended): the row stored by store_message carries
expiry = now + min(ttl, max retention), which never exceeds
now + max retention; the original claim's "every operation" part fails at
register_channel, see register_channel_exceeds_retention. -/
theorem store_message_expiry_clamped :
    ∀ (s : Store) (n : WebPushNotification) (now : Int),
      store_message s n now = put_item s (mkStoredItem n now) ∧
      (mkStoredItem n now).expiry = some (now + min n.ttl MAX_EXPIRY) ∧
      now + min n.ttl MAX_EXPIRY ≤ now + MAX_EXPIRY := by
  intro s n now
  refine ⟨rfl, ?_, ?_⟩
  · simp [mkStoredItem, pyOrZero_eq]
  · have h := min_le_right n.ttl MAX_EXPIRY
    omega

def uaidHexW : Chars := str "11111111111111111111111111111111"

/-- C8 (counterexample): register_channel does not clamp the caller's ttl,
so a ttl of max retention + 1 second stores a metadata row whose expiry
exceeds now + max retention, refuting "every row written by any operation
of the store carries an expiry no later than now + max_retention". -/
theorem register_channel_exceeds_retention :
    register_channel [] uaidHexW uuidA (some (MAX_EXPIRY + 1)) 0 =
      some [{ uaid := uaidHexW, chidmessageid := str " ", chids := [uuidA],
              expiry := some (MAX_EXPIRY + 1) }] ∧
    ¬ (MAX_EXPIRY + 1 ≤ 0 + MAX_EXPIRY) := by
  constructor
  · decide
  · decide

theorem mem_addSet (c : Chars) (l : List Chars) : c ∈ addSet c l := by
  unfold addSet
  split_ifs with h
  · exact h
  · simp

theorem getItem_updateAddChid (s : Store) (pu k c : Chars) (e : Int) :
    ∃ it, getItem (updateAddChid s pu k c e) pu k = some it ∧ c ∈ it.chids := by
  induction s with
  | nil =>
    refine ⟨{ uaid := pu, chidmessageid := k, chids := [c], expiry := some e }, ?_, by simp⟩
    simp [updateAddChid, getItem]
  | cons i rest ih =>
    by_cases h : i.uaid = pu ∧ i.chidmessageid = k
    · refine ⟨{ i with chids := addSet c i.chids, expiry := some e }, ?_, mem_addSet c i.chids⟩
      simp only [updateAddChid, if_pos h, getItem]
    · obtain ⟨it, hget, hmem⟩ := ih
      refine ⟨it, ?_, hmem⟩
      simp only [updateAddChid, if_neg h, getItem, if_neg h]
      exact hget

/-- C1 (amended): when the UAID is given in the 32-hex form (so that
uuid.UUID(uaid).hex equals the string itself) and the channel id is
canonical, register_channel and all_channels address the same physical
row: after register_channel succeeds, all_channels returns (true, S) with
the channel in S. For a canonical hyphenated UAID the two paths hash
different strings, see register_all_channels_mismatch. -/
theorem register_then_all_channels (s : Store) (u c : Chars) (ttl : Option Int)
    (now : Int) (st : Store)
    (hu : uuidParse u = some u) (hc : normalizeId c = some c)
    (hreg : register_channel s u c ttl now = some st) :
    ∃ S, all_channels st u = some (true, S) ∧ c ∈ S := by
  unfold register_channel at hreg
  rw [hc] at hreg
  simp only [Option.some.injEq] at hreg
  subst hreg
  obtain ⟨it, hget, hmem⟩ :=
    getItem_updateAddChid s (hasher u) (str " ") c (now + ttl.getD MAX_EXPIRY)
  refine ⟨it.chids, ?_, hmem⟩
  unfold all_channels
  rw [hu]
  simp only [hget]

def uaidCanon : Chars := str "11111111-1111-1111-1111-111111111111"

/-- C1 (counterexample): with the canonical UAID of the spec's scenario,
register_channel writes the row keyed by the hyphenated string while
all_channels reads the row keyed by its 32-hex form, so the freshly
registered channel set is not found: the call chain returns
(false, empty) instead of (true, with the channel). -/
theorem register_all_channels_mismatch :
    (register_channel [] uaidCanon uaidCanon (some 0) 0).bind
        (fun st => all_channels st uaidCanon) = some (false, []) := by
  decide

def chidCanonW : Chars := str "22222222-2222-2222-2222-222222222222"

def regStW : Store :=
  [{ uaid := uaidHexW, chidmessageid := str " ", chids := [chidCanonW], expiry := some 0 }]

theorem register_then_all_channels_witness :
    ∃ S, all_channels regStW uaidHexW = some (true, S) ∧ chidCanonW ∈ S :=
  register_then_all_channels [] uaidHexW chidCanonW (some 0) 0 regStW
    (by decide) (by decide) (by decide)

theorem getItem_removeItem (s : Store) (pu k : Chars) :
    getItem (removeItem s pu k) pu k = none := by
  induction s with
  | nil => rfl
  | cons i rest ih =>
    by_cases h : i.uaid = pu ∧ i.chidmessageid = k
    · simp only [removeItem, if_pos h]
      exact ih
    · simp only [removeItem, if_neg h, getItem, if_neg h]
      exact ih

/-- C7: delete_message with a (truthy) update_id issues a conditional
delete — a stored-row mismatch returns false and leaves the store
unchanged, a match returns true with the row gone — and with no update_id
it deletes unconditionally. (sort_key is the spec-modelled encoder.) -/
theorem delete_message_conditional :
    (∀ (s : Store) (n : WebPushNotification) (v : Chars) (row : Item),
      n.update_id = some v → v ≠ [] →
      getItem s (hasher n.uaid) (sort_key n) = some row →
      row.updateid ≠ some v →
      delete_message s n = (s, false)) ∧
    (∀ (s : Store) (n : WebPushNotification) (v : Chars) (row : Item),
      n.update_id = some v → v ≠ [] →
      getItem s (hasher n.uaid) (sort_key n) = some row →
      row.updateid = some v →
      (delete_message s n).2 = true ∧
      getItem (delete_message s n).1 (hasher n.uaid) (sort_key n) = none) ∧
    (∀ (s : Store) (n : WebPushNotification),
      n.update_id = none →
      delete_message s n = (removeItem s (hasher n.uaid) (sort_key n), true)) := by
  refine ⟨?_, ?_, ?_⟩
  · intro s n v row hv hne hget hmis
    unfold delete_message deleteMessageAt
    rw [hv]
    simp only [if_neg hne, hget]
    rw [if_neg hmis]
  · intro s n v row hv hne hget hmatch
    unfold delete_message deleteMessageAt
    rw [hv]
    simp only [if_neg hne, hget]
    rw [if_pos hmatch]
    exact ⟨rfl, getItem_removeItem s _ _⟩
  · intro s n hv
    unfold delete_message deleteMessageAt
    rw [hv]

def c7n : WebPushNotification :=
  { uaid := uaidHexW, channel_id := str "22222222222222222222222222222222",
    ttl := 0, sortkey_timestamp := some 5, update_id := some (str "new") }

def c7rowOld : Item :=
  { uaid := uaidHexW, chidmessageid := sort_key c7n, updateid := some (str "old") }

def c7rowNew : Item :=
  { uaid := uaidHexW, chidmessageid := sort_key c7n, updateid := some (str "new") }

theorem delete_message_conditional_witness :
    delete_message [c7rowOld] c7n = ([c7rowOld], false) ∧
    ((delete_message [c7rowNew] c7n).2 = true ∧
      getItem (delete_message [c7rowNew] c7n).1 (hasher c7n.uaid) (sort_key c7n) = none) ∧
    delete_message [c7rowOld] { c7n with update_id := none } =
      (removeItem [c7rowOld] (hasher c7n.uaid) (sort_key { c7n with update_id := none }), true) :=
  ⟨delete_message_conditional.1 [c7rowOld] c7n (str "new") c7rowOld rfl (by decide)
      (by decide) (by decide),
   delete_message_conditional.2.1 [c7rowNew] c7n (str "new") c7rowNew rfl (by decide)
      (by decide) (by decide),
   delete_message_conditional.2.2 [c7rowOld] { c7n with update_id := none } rfl⟩

theorem daysInMonth_bounds (y : Int) (m : Nat) :
    28 ≤ daysInMonth y m ∧ daysInMonth y m ≤ 31 := by
  unfold daysInMonth
  split_ifs <;> omega

theorem bumpF_exit (neg : Bool) (fuel : Nat) (last cur : PDate)
    (h : cur.month ≠ last.month) : bumpF neg fuel last cur = cur := by
  cases fuel with
  | zero => rfl
  | succ fuel => simp only [bumpF, if_neg h]

/-- One pass of the 14-day stepping loop from a valid date lands in the
immediately following month, on a day between 1 and 14. -/
theorem bumpF_next : ∀ (fuel : Nat) (last cur : PDate),
    cur.month = last.month →
    1 ≤ cur.month → cur.month ≤ 12 →
    1 ≤ cur.day → cur.day ≤ daysInMonth cur.year cur.month →
    daysInMonth cur.year cur.month < cur.day + 14 * fuel →
    (bumpF false fuel last cur).month = (if cur.month = 12 then 1 else cur.month + 1) ∧
    (bumpF false fuel last cur).year = (if cur.month = 12 then cur.year + 1 else cur.year) ∧
    1 ≤ (bumpF false fuel last cur).day ∧ (bumpF false fuel last cur).day ≤ 14 := by
  intro fuel
  induction fuel with
  | zero =>
    intro last cur _ _ _ _ h4 hf
    exact absurd hf (by omega)
  | succ fuel ih =>
    intro last cur hm h1 h2 h3 h4 hf
    have hstep_eq : bumpF false (fuel + 1) last cur = bumpF false fuel last (plus14 cur) := by
      simp only [bumpF, if_pos hm, Bool.false_eq_true, if_false]
    rw [hstep_eq]
    by_cases hstep : cur.day + 14 ≤ daysInMonth cur.year cur.month
    · have hplus : plus14 cur = ⟨cur.year, cur.month, cur.day + 14⟩ := by
        unfold plus14
        rw [if_pos hstep]
      rw [hplus]
      exact ih last ⟨cur.year, cur.month, cur.day + 14⟩ hm h1 h2
        (by show 1 ≤ cur.day + 14; omega)
        (by exact hstep)
        (by show daysInMonth cur.year cur.month < (cur.day + 14) + 14 * fuel; omega)
    · by_cases h12 : cur.month = 12
      · have hplus : plus14 cur =
            ⟨cur.year + 1, 1, cur.day + 14 - daysInMonth cur.year 12⟩ := by
          unfold plus14
          rw [if_neg hstep, if_pos h12]
        have hexit : (⟨cur.year + 1, 1, cur.day + 14 - daysInMonth cur.year 12⟩ : PDate).month
            ≠ last.month := by
          show (1 : Nat) ≠ last.month
          rw [← hm, h12]
          omega
        rw [hplus, bumpF_exit false fuel last _ hexit]
        rw [h12] at h4 hstep
        refine ⟨by simp [h12], by simp [h12], ?_, ?_⟩
        · show 1 ≤ cur.day + 14 - daysInMonth cur.year 12
          omega
        · show cur.day + 14 - daysInMonth cur.year 12 ≤ 14
          omega
      · have hplus : plus14 cur =
            ⟨cur.year, cur.month + 1, cur.day + 14 - daysInMonth cur.year cur.month⟩ := by
          unfold plus14
          rw [if_neg hstep, if_neg h12]
        have hexit : (⟨cur.year, cur.month + 1,
            cur.day + 14 - daysInMonth cur.year cur.month⟩ : PDate).month ≠ last.month := by
          show cur.month + 1 ≠ last.month
          rw [← hm]
          omega
        rw [hplus, bumpF_exit false fuel last _ hexit]
        refine ⟨by simp [h12], by simp [h12], ?_, ?_⟩
        · show 1 ≤ cur.day + 14 - daysInMonth cur.year cur.month
          omega
        · show cur.day + 14 - daysInMonth cur.year cur.month ≤ 14
          omega

/-- The outer loop advances the calendar month by exactly one per
iteration (tracking year rollover). -/
theorem monthLoop_spec : ∀ (k : Nat) (d : PDate),
    1 ≤ d.month → d.month ≤ 12 → 1 ≤ d.day → d.day ≤ daysInMonth d.year d.month →
    (monthLoop false k d).month = (d.month - 1 + k) % 12 + 1 ∧
    (monthLoop false k d).year = d.year + (((d.month - 1 + k) / 12 : Nat) : Int) := by
  intro k
  induction k with
  | zero =>
    intro d h1 h2 _ _
    constructor
    · show d.month = (d.month - 1 + 0) % 12 + 1
      omega
    · show d.year = d.year + (((d.month - 1 + 0) / 12 : Nat) : Int)
      have hz : (d.month - 1 + 0) / 12 = 0 := by omega
      rw [hz]
      simp
  | succ k ih =>
    intro d h1 h2 h3 h4
    have hL := daysInMonth_bounds d.year d.month
    have hb := bumpF_next 40 d d rfl h1 h2 h3 h4 (by omega)
    obtain ⟨hbm, hby, hbd1, hbd2⟩ := hb
    have h1' : 1 ≤ (bumpF false 40 d d).month := by
      rw [hbm]; split_ifs <;> omega
    have h2' : (bumpF false 40 d d).month ≤ 12 := by
      rw [hbm]; split_ifs <;> omega
    have h4' : (bumpF false 40 d d).day ≤
        daysInMonth (bumpF false 40 d d).year (bumpF false 40 d d).month := by
      have := daysInMonth_bounds (bumpF false 40 d d).year (bumpF false 40 d d).month
      omega
    obtain ⟨ihm, ihy⟩ := ih (bumpF false 40 d d) h1' h2' hbd1 h4'
    constructor
    · show (monthLoop false k (bumpF false 40 d d)).month = (d.month - 1 + (k + 1)) % 12 + 1
      rw [ihm, hbm]
      split_ifs with hm12
      · rw [hm12]
        omega
      · omega
    · show (monthLoop false k (bumpF false 40 d d)).year
          = d.year + (((d.month - 1 + (k + 1)) / 12 : Nat) : Int)
      rw [ihy, hby, hbm]
      split_ifs with hm12
      · rw [hm12]
        have e1 : (1 - 1 + k) / 12 = k / 12 := by omega
        have e2 : (12 - 1 + (k + 1)) / 12 = k / 12 + 1 := by omega
        rw [e1, e2]
        push_cast
        ring
      · have e1 : (d.month + 1 - 1 + k) = d.month - 1 + (k + 1) := by omega
        rw [e1]

/-- C10: get_month(12) from any valid start date (leap-year February
included) lands on the same calendar month number, one year later. -/
theorem get_month_12_same_month (d : PDate)
    (h1 : 1 ≤ d.month) (h2 : d.month ≤ 12) (h3 : 1 ≤ d.day)
    (h4 : d.day ≤ daysInMonth d.year d.month) :
    (get_month 12 d).month = d.month ∧ (get_month 12 d).year = d.year + 1 := by
  obtain ⟨hm, hy⟩ := monthLoop_spec 12 d h1 h2 h3 h4
  have hg : get_month 12 d = monthLoop false 12 d := rfl
  rw [hg, hm, hy]
  constructor
  · omega
  · have e : (d.month - 1 + 12) / 12 = 1 := by omega
    rw [e]
    push_cast
    ring

theorem get_month_12_same_month_witness :
    (get_month 12 ⟨2024, 2, 29⟩).month = 2 ∧ (get_month 12 ⟨2024, 2, 29⟩).year = 2024 + 1 :=
  get_month_12_same_month ⟨2024, 2, 29⟩ (by decide) (by decide) (by decide) (by decide)

theorem mem_insertByKey {x a : Item} {l : List Item} :
    x ∈ insertByKey a l ↔ x = a ∨ x ∈ l := by
  induction l with
  | nil => simp [insertByKey]
  | cons y ys ih =>
    unfold insertByKey
    split_ifs with h
    · simp [List.mem_cons]
    · rw [List.mem_cons, ih, List.mem_cons]
      tauto

theorem mem_sortByKey {x : Item} {l : List Item} : x ∈ sortByKey l ↔ x ∈ l := by
  induction l with
  | nil => simp [sortByKey]
  | cons y ys ih =>
    show x ∈ insertByKey y (sortByKey ys) ↔ _
    rw [mem_insertByKey, ih, List.mem_cons]

theorem mem_queryAsc {s : Store} {pu : Chars} {cond : Chars → Bool} {lim : Nat} {x : Item}
    (hx : x ∈ queryAsc s pu cond lim) :
    x ∈ s ∧ x.uaid = pu ∧ cond x.chidmessageid = true := by
  unfold queryAsc at hx
  have h1 := List.take_subset _ _ hx
  rw [mem_sortByKey, List.mem_filter] at h1
  obtain ⟨hmem, hp⟩ := h1
  simp only [Bool.and_eq_true, decide_eq_true_eq] at hp
  exact ⟨hmem, hp.1, hp.2⟩

theorem insertByKey_front {x : Item} {l : List Item}
    (h : ∀ y ∈ l, lexLt x.chidmessageid y.chidmessageid = true) :
    insertByKey x l = x :: l := by
  cases l with
  | nil => rfl
  | cons y ys =>
    unfold insertByKey
    rw [if_pos (h y (by simp))]

theorem sortByKey_cons_min {l : List Item} {m : Item} (hnd : l.Nodup) (hm : m ∈ l)
    (hmin : ∀ y ∈ l, y ≠ m → lexLt m.chidmessageid y.chidmessageid = true) :
    sortByKey l = m :: sortByKey (l.erase m) := by
  induction l with
  | nil => simp at hm
  | cons a t ih =>
    rcases List.mem_cons.mp hm with rfl | hmt
    · have hmt' : m ∉ t := (List.nodup_cons.mp hnd).1
      show insertByKey m (sortByKey t) = m :: sortByKey ((m :: t).erase m)
      rw [List.erase_cons_head]
      apply insertByKey_front
      intro y hy
      rw [mem_sortByKey] at hy
      exact hmin y (by simp [hy]) (fun he => hmt' (he ▸ hy))
    · have hane : a ≠ m := fun he => (List.nodup_cons.mp hnd).1 (he ▸ hmt)
      have hnd' := (List.nodup_cons.mp hnd).2
      have ihh := ih hnd' hmt (fun y hy hne => hmin y (by simp [hy]) hne)
      have hlt : lexLt m.chidmessageid a.chidmessageid = true := hmin a (by simp) hane
      have hnlt : lexLt a.chidmessageid m.chidmessageid = false := lexLt_asymm hlt
      show insertByKey a (sortByKey t) = m :: sortByKey ((a :: t).erase m)
      rw [ihh]
      unfold insertByKey
      rw [if_neg (by simp [hnlt]), List.erase_cons_tail]
      · rfl
      · simp [hane]

theorem keysUnique_nodup {s : Store} (h : keysUnique s = true) : s.Nodup := by
  induction s with
  | nil => simp
  | cons i rest ih =>
    simp only [keysUnique, Bool.and_eq_true, List.all_eq_true] at h
    rw [List.nodup_cons]
    refine ⟨fun hmem => ?_, ih h.2⟩
    have := h.1 i hmem
    simp at this

theorem keysUnique_inj {s : Store} (h : keysUnique s = true) {x y : Item}
    (hx : x ∈ s) (hy : y ∈ s) (h1 : x.uaid = y.uaid)
    (h2 : x.chidmessageid = y.chidmessageid) : x = y := by
  induction s with
  | nil => simp at hx
  | cons i rest ih =>
    simp only [keysUnique, Bool.and_eq_true, List.all_eq_true] at h
    rcases List.mem_cons.mp hx with rfl | hx' <;> rcases List.mem_cons.mp hy with rfl | hy'
    · rfl
    · have hne := h.1 y hy'
      simp only [Bool.not_eq_eq_eq_not, Bool.not_true, decide_eq_false_iff_not] at hne
      exact absurd ⟨h1.symm, h2.symm⟩ hne
    · have hne := h.1 x hx'
      simp only [Bool.not_eq_eq_eq_not, Bool.not_true, decide_eq_false_iff_not] at hne
      exact absurd ⟨h1, h2⟩ hne
    · exact ih h.2 hx' hy'

/-- Inverse of splitCh: re-join parts with colons. -/
def joinC : List Chars → Chars
  | [] => []
  | [p] => p
  | p :: q :: ps => p ++ ':' :: joinC (q :: ps)

theorem joinC_splitCh (l : Chars) : joinC (splitCh l) = l := by
  induction l with
  | nil => rfl
  | cons c rest ih =>
    by_cases h : c = ':'
    · subst h
      simp only [splitCh, if_pos rfl]
      obtain ⟨q, qs, hq⟩ : ∃ q qs, splitCh rest = q :: qs := by
        cases hs : splitCh rest with
        | nil => exact absurd hs (splitCh_ne_nil rest)
        | cons q qs => exact ⟨q, qs, rfl⟩
      rw [hq]
      show [] ++ ':' :: joinC (q :: qs) = ':' :: rest
      rw [← hq, ih]
      rfl
    · simp only [splitCh, if_neg h]
      cases hs : splitCh rest with
      | nil => exact absurd hs (splitCh_ne_nil rest)
      | cons p ps =>
        rw [hs] at ih
        cases ps with
        | nil =>
          show c :: p = c :: rest
          rw [show joinC [p] = p from rfl] at ih
          rw [ih]
        | cons q qs =>
          show (c :: p) ++ ':' :: joinC (q :: qs) = c :: rest
          rw [List.cons_append, ← ih]
          rfl

theorem checkKey_elim {k : Chars} (h : checkKey k = true) :
    k = str " " ∨
    (∃ c t, splitCh k = [str "01", c, t] ∧ isCanonicalUuid c = true) ∨
    (∃ d c, splitCh k = [str "02", d, c] ∧ d.length = 19 ∧
      (∀ x ∈ d, isDigitCh x = true) ∧ isCanonicalUuid c = true) ∨
    (∃ c m, splitCh k = [c, m] ∧ isCanonicalUuid c = true) := by
  unfold checkKey at h
  rw [Bool.or_eq_true] at h
  rcases h with h | h
  · left
    simpa using h
  · right
    rcases hs : splitCh k with _ | ⟨a, _ | ⟨b, _ | ⟨c, _ | d⟩⟩⟩ <;> rw [hs] at h
    · simp at h
    · simp at h
    · right; right
      exact ⟨a, b, rfl, by simpa using h⟩
    · simp only [Bool.or_eq_true, Bool.and_eq_true, decide_eq_true_eq,
        List.all_eq_true] at h
      rcases h with ⟨h1, h2⟩ | ⟨⟨⟨h1, h2⟩, h3⟩, h4⟩
      · left
        exact ⟨b, c, by rw [h1], h2⟩
      · right; left
        exact ⟨b, c, by rw [h1], h2, h3, h4⟩
    · simp at h

theorem key_of_split3 {k v a b : Chars} (hs : splitCh k = [v, a, b]) :
    k = v ++ ':' :: (a ++ ':' :: b) := by
  have hj := joinC_splitCh k
  rw [hs] at hj
  rw [← hj]
  rfl

theorem key_of_split2 {k a b : Chars} (hs : splitCh k = [a, b]) :
    k = a ++ ':' :: b := by
  have hj := joinC_splitCh k
  rw [hs] at hj
  rw [← hj]
  rfl

theorem canonical_first3 {l : Chars} (h : isCanonicalUuid l = true) :
    ∃ a b d rest, l = a :: b :: d :: rest ∧ isHexCh a = true ∧ isHexCh b = true ∧
      isHexCh d = true := by
  obtain ⟨t, hp, hh⟩ := isCanonicalUuid_elim h
  obtain ⟨hlen, hhex⟩ := uuidParse_props hp
  cases t with
  | nil => simp at hlen
  | cons x t1 =>
    cases t1 with
    | nil => simp at hlen
    | cons y t2 =>
      cases t2 with
      | nil => simp at hlen
      | cons z ts =>
        refine ⟨x, y, z, l.drop 3, ?_, hhex x (by simp), hhex y (by simp),
          hhex z (by simp)⟩
        rw [← hh]
        rfl

theorem startsW01_false_of_hex3 {a b d : Char} (hd : isHexCh d = true) (rest : Chars) :
    startsW (str "01:") (a :: b :: d :: rest) = false := by
  show (decide ('0' = a) && (decide ('1' = b) && (decide (':' = d) && startsW [] rest))) = false
  have hcd : decide (':' = d) = false := by
    rw [decide_eq_false_iff_not]
    intro he
    exact hex_ne_colon hd he.symm
  rw [hcd]
  simp

theorem startsW02_false_of_hex3 {a b d : Char} (hd : isHexCh d = true) (rest : Chars) :
    startsW (str "02:") (a :: b :: d :: rest) = false := by
  show (decide ('0' = a) && (decide ('2' = b) && (decide (':' = d) && startsW [] rest))) = false
  have hcd : decide (':' = d) = false := by
    rw [decide_eq_false_iff_not]
    intro he
    exact hex_ne_colon hd he.symm
  rw [hcd]
  simp

theorem parseSK_of_01 {k c t : Chars} (hs : splitCh k = [str "01", c, t]) :
    parseSK k = Except.ok ⟨str "01", c, some t, none, none⟩ := by
  have hk := key_of_split3 hs
  have hstart : startsW (str "01:") k = true := by
    rw [hk]
    exact startsW_append (str "01:") _
  unfold parseSK
  rw [hstart, if_pos rfl, hs]

theorem parseSK_of_02 {k d c : Chars} (hs : splitCh k = [str "02", d, c])
    (hd : d ≠ []) (hdig : ∀ x ∈ d, isDigitCh x = true) :
    parseSK k = Except.ok ⟨str "02", c, none, none, some ((valD d : Nat) : Int)⟩ := by
  have hk := key_of_split3 hs
  have h01 : startsW (str "01:") k = false := by
    rw [hk]
    rfl
  have h02 : startsW (str "02:") k = true := by
    rw [hk]
    exact startsW_append (str "02:") _
  unfold parseSK
  rw [h01, if_neg (by simp), h02, if_pos rfl, hs]
  simp only [parseIntPy_digits hd hdig]

theorem parseSK_of_legacy {k c m : Chars} (hs : splitCh k = [c, m])
    (hc : isCanonicalUuid c = true) :
    parseSK k = Except.ok ⟨str "00", c, none, some m, none⟩ := by
  have hk := key_of_split2 hs
  obtain ⟨a, b, d, rest, hcs, _, _, hd⟩ := canonical_first3 hc
  have h01 : startsW (str "01:") k = false := by
    rw [hk, hcs]
    exact startsW01_false_of_hex3 hd _
  have h02 : startsW (str "02:") k = false := by
    rw [hk, hcs]
    exact startsW02_false_of_hex3 hd _
  unfold parseSK
  rw [h01, if_neg (by simp), h02, if_neg (by simp), hs]

theorem wellFormedStore_mem {s : Store} (h : wellFormedStore s = true) {i : Item}
    (hi : i ∈ s) : checkKey i.chidmessageid = true := by
  unfold wellFormedStore at h
  rw [List.all_eq_true] at h
  exact h i hi

theorem space_lt_key {k : Chars} (hk : checkKey k = true) (hne : k ≠ str " ") :
    lexLt (str " ") k = true := by
  rcases checkKey_elim hk with h | ⟨c, t, hs, _⟩ | ⟨d, c, hs, _, _, _⟩ | ⟨c, m, hs, hc⟩
  · exact absurd h hne
  · rw [key_of_split3 hs]
    exact lexLt_cons_of_lt _ _ (by decide)
  · rw [key_of_split3 hs]
    exact lexLt_cons_of_lt _ _ (by decide)
  · obtain ⟨a, b, d, rest, hcs, ha, _, _⟩ := canonical_first3 hc
    rw [key_of_split2 hs, hcs]
    exact lexLt_cons_of_lt _ _ (hex_gt_space ha)

def c4item : Item :=
  { uaid := uaidHexW, chidmessageid := str "01:" ++ uuidA ++ str ":t1",
    updateid := some (str "u1"), ttl := some 0, timestamp := some 1 }

def c4meta : Item :=
  { uaid := uaidHexW, chidmessageid := str " ", chids := [uuidA],
    current_timestamp := some 7 }

def c4s2 : Store := [c4item, c4meta]

theorem wellFormed_updateSetCT {s : Store} (pu : Chars) (ts e : Int)
    (h : wellFormedStore s = true) :
    wellFormedStore (updateSetCT s pu (str " ") ts e) = true := by
  induction s with
  | nil =>
    simp only [updateSetCT, wellFormedStore, List.all_cons, List.all_nil, Bool.and_true]
    decide
  | cons i rest ih =>
    simp only [wellFormedStore, List.all_cons, Bool.and_eq_true] at h
    by_cases hk : i.uaid = pu ∧ i.chidmessageid = str " "
    · simp only [updateSetCT, if_pos hk, wellFormedStore, List.all_cons, Bool.and_eq_true]
      exact ⟨h.1, by simpa [wellFormedStore] using h.2⟩
    · simp only [updateSetCT, if_neg hk, wellFormedStore, List.all_cons, Bool.and_eq_true]
      exact ⟨h.1, by simpa [wellFormedStore] using ih h.2⟩

/-- Soundness of the "02:" + str(watermark) + ":z" lower bound over
well-formed v02 keys: a key that sorts strictly above the bound carries a
timestamp strictly above the watermark (for watermarks in [1, 10^19)). -/
theorem bound_sound (ts : Int) (h1 : 1 ≤ ts) (h2 : ts < 10 ^ 19)
    (d c : Chars) (hd19 : d.length = 19) (hdig : ∀ x ∈ d, isDigitCh x = true)
    (hc : isCanonicalUuid c = true)
    (hgt : lexLt (str "02:" ++ intToStr ts ++ str ":z")
        (str "02" ++ ':' :: (d ++ ':' :: c)) = true) :
    ts < ((valD d : Nat) : Int) := by
  have epowI : (10 : Int) ^ 19 = 10000000000000000000 := by norm_num
  have epowN : (10 : Nat) ^ 19 = 10000000000000000000 := by norm_num
  have epow18 : (10 : Nat) ^ 18 = 1000000000000000000 := by norm_num
  have hts0 : ¬ ts < 0 := by omega
  have hint : intToStr ts = natToStr ts.toNat := by
    unfold intToStr
    rw [if_neg hts0]
  set m := ts.toNat with hm
  have hm1 : 1 ≤ m := by omega
  have hm2 : m < 10 ^ 19 := by rw [epowN]; omega
  suffices hsuff : m < valD d by
    have hcast : (m : Int) < (valD d : Int) := by exact_mod_cast hsuff
    omega
  have hsdig := natToStr_all_digit m
  have hslen := length_natToStr m
  obtain ⟨hmlt, hmge'⟩ := digLen_spec m
  have hmge := hmge' hm1
  have hL1 : 1 ≤ digLen m := digLenAux_pos m m
  have hL19 : digLen m ≤ 19 := by
    by_contra hgtL
    push_neg at hgtL
    have hple : (10:Nat) ^ 19 ≤ 10 ^ (digLen m - 1) :=
      Nat.pow_le_pow_right (by omega) (by omega)
    omega
  have hgt' : lexLt (natToStr m ++ str ":z") (d ++ ':' :: c) = true := by
    rw [← lexLt_append_same (str "02:") (natToStr m ++ str ":z") (d ++ ':' :: c)]
    rw [hint] at hgt
    exact hgt
  by_cases hL : digLen m = 19
  · have hval : valD (natToStr m) = m := valD_natToStr m
    rcases Nat.lt_trichotomy (valD d) m with hlt | heq | hgt2
    · exfalso
      have hdlt : lexLt d (natToStr m) = true := by
        rw [lexLt_digits (by rw [hd19, hslen, hL]) hdig hsdig, hval]
        exact hlt
      have happ := lexLt_append_of_lt (':' :: c) (str ":z")
        (by rw [hd19, hslen, hL]) hdlt
      have hasym := lexLt_asymm happ
      rw [hgt'] at hasym
      simp at hasym
    · exfalso
      have hd_eq : d = natToStr m := by
        have hu := digitsBE_of_valD hdig
        rw [hd19, heq] at hu
        rw [← hu]
        show digitsBE 19 m = natToStr m
        unfold natToStr
        rw [hL]
      rw [← hd_eq] at hgt'
      rw [lexLt_append_same d (str ":z") (':' :: c)] at hgt'
      obtain ⟨a, rest, hcs, ha⟩ := canonical_head_hex hc
      rw [hcs] at hgt'
      rcases lexLt_cons_elim hgt' with hx | ⟨_, hx⟩
      · exact absurd hx (by decide)
      · rcases lexLt_cons_elim hx with hy | ⟨hy, _⟩
        · exact absurd hy (lt_asymm (hex_lt_z ha))
        · have hz := hex_lt_z ha
          rw [← hy] at hz
          exact lt_irrefl _ hz
    · exact hgt2
  · have hL18 : digLen m ≤ 18 := by omega
    have hm18 : m < 10 ^ 18 := by
      have hple : (10:Nat) ^ digLen m ≤ 10 ^ 18 := Nat.pow_le_pow_right (by omega) hL18
      omega
    cases hd_shape : d with
    | nil =>
      rw [hd_shape] at hd19
      simp at hd19
    | cons d0 ds =>
      rw [hd_shape] at hdig hd19 hgt'
      have hd0 : isDigitCh d0 = true := hdig d0 (by simp)
      have hds_len : ds.length = 18 := by simpa using hd19
      by_cases hz : charDigitVal d0 = 0
      · exfalso
        have hcr := char_round hd0
        rw [hz] at hcr
        have hd0z : d0 = '0' := hcr.symm
        obtain ⟨e, srest, hsm, he1, he9, _⟩ := natToStr_head m hm1
        rw [hsm, hd0z] at hgt'
        rw [List.cons_append, List.cons_append] at hgt'
        rcases lexLt_cons_elim hgt' with hy | ⟨hy, _⟩
        · have hee := (digit_lt_iff (digitChar_is_digit he9) (by decide)).mp hy
          rw [digit_round he9] at hee
          have h00 : charDigitVal '0' = 0 := rfl
          rw [h00] at hee
          omega
        · have hee := (digit_eq_iff (digitChar_is_digit he9) (by decide)).mp hy
          rw [digit_round he9] at hee
          have h00 : charDigitVal '0' = 0 := rfl
          rw [h00] at hee
          omega
      · have hval : valD (d0 :: ds) = charDigitVal d0 * 10 ^ 18 + valD ds := by
          rw [valD_cons, hds_len]
        have hge : 10 ^ 18 ≤ valD (d0 :: ds) := by
          have h18 : (10:Nat) ^ 18 ≤ charDigitVal d0 * 10 ^ 18 :=
            Nat.le_mul_of_pos_left _ (by omega)
          omega
        omega

def c3itemW : Item :=
  { uaid := uaidHexW, chidmessageid := str "02:" ++ pad19 (10 ^ 18 + 5) ++ ':' :: uuidA,
    updateid := some (str "u1"), ttl := some 0, timestamp := some 1 }

def c3sW : Store := [c3itemW]

theorem from_message_table_uuid_obj (u : Chars) (i : Item) :
    ∃ e, from_message_table (PyVal.vUuid u) i = Except.error e := by
  unfold from_message_table
  cases hpk : parseSK i.chidmessageid with
  | error e => exact ⟨e, rfl⟩
  | ok ki => exact ⟨PyErr.attributeError, rfl⟩

theorem decodeAll_uuid_obj (u : Chars) (i : Item) (rest : List Item) :
    ∃ e, decodeAll (PyVal.vUuid u) (i :: rest) = Except.error e := by
  obtain ⟨e, he⟩ := from_message_table_uuid_obj u i
  refine ⟨e, ?_⟩
  unfold decodeAll
  rw [he]

theorem decodeAll_uuid_ok {u : Chars} {items : List Item}
    {ns : List WebPushNotification}
    (h : decodeAll (PyVal.vUuid u) items = Except.ok ns) : ns = [] := by
  cases items with
  | nil =>
    have h' : (Except.ok ([] : List WebPushNotification) : Except PyErr _) =
        Except.ok ns := h
    injection h' with h2
    exact h2.symm
  | cons i rest =>
    obtain ⟨e, he⟩ := decodeAll_uuid_obj u i rest
    rw [he] at h
    exact Except.noConfusion h

/-- C4 (code bug): fetch_messages passes its uuid.UUID uaid object into
WebPushNotification.from_message_table (src/tests/db.py:668), whose
uuid.UUID(uaid) call (db.py:174) raises AttributeError on a UUID object.
So with a metadata row and one stored notification present, the call
raises instead of returning the decoded notification; in general every
successful return of fetch_messages carries an empty notification list,
never the stored notifications the claim promises. -/
theorem fetch_messages_decode_raises :
    fetch_messages c4s2 uaidHexW 10 = Except.error PyErr.attributeError ∧
    ∀ (s : Store) (u : Chars) (limit : Nat) (lp : Option Int)
        (ns : List WebPushNotification),
      fetch_messages s u limit = Except.ok (lp, ns) → ns = [] := by
  constructor
  · decide
  · intro s u limit lp ns h
    unfold fetch_messages at h
    split at h
    · have h' : (Except.ok ((none : Option Int),
          ([] : List WebPushNotification)) : Except PyErr _) =
          Except.ok (lp, ns) := h
      injection h' with h2
      exact (congrArg Prod.snd h2).symm
    · rename_i r0 rest hq
      cases hda : decodeAll (PyVal.vUuid u) rest with
      | error e =>
        rw [hda] at h
        exact Except.noConfusion h
      | ok ns0 =>
        have hnil : ns0 = [] := decodeAll_uuid_ok hda
        rw [hda] at h
        have h' : (Except.ok ((match r0.current_timestamp with
            | some ct => if ct = 0 then none else some ct
            | none => none), ns0) : Except PyErr _) = Except.ok (lp, ns) := h
        injection h' with h2
        have h3 : ns0 = ns := congrArg Prod.snd h2
        rw [← h3]
        exact hnil

theorem fetch_messages_decode_raises_witness :
    fetch_messages ([] : Store) uaidHexW 10 =
      Except.ok ((none : Option Int), ([] : List WebPushNotification)) ∧
    ([] : List WebPushNotification) = [] :=
  ⟨by decide,
   fetch_messages_decode_raises.2 [] uaidHexW 10 none [] (by decide)⟩

/-- C3 (code bug): fetch_timestamp_messages passes its uuid.UUID uaid
object into WebPushNotification.from_message_table (src/tests/db.py:705),
whose uuid.UUID(uaid) call (db.py:174) raises AttributeError on a UUID
object. So after update_last_message_read records a watermark, fetching
with that watermark over a store holding one newer timestamped
notification raises instead of returning it; in general every successful
return of fetch_timestamp_messages carries an empty notification list,
never the newer notifications the claim promises. -/
theorem fetch_timestamp_messages_decode_raises :
    fetch_timestamp_messages
        (update_last_message_read c3sW uaidHexW ((10 : Int) ^ 18 + 3) 0) uaidHexW
        (some ((10 : Int) ^ 18 + 3)) 10 = Except.error PyErr.attributeError ∧
    ∀ (s : Store) (u : Chars) (ts : Option Int) (limit : Nat) (lp : Option Int)
        (ns : List WebPushNotification),
      fetch_timestamp_messages s u ts limit = Except.ok (lp, ns) → ns = [] := by
  constructor
  · decide
  · intro s u ts limit lp ns h
    unfold fetch_timestamp_messages at h
    split at h
    · exact Except.noConfusion h
    · rename_i notifs hda
      have hnil : notifs = [] := decodeAll_uuid_ok hda
      injection h with h2
      have h3 : notifs = ns := congrArg Prod.snd h2
      rw [← h3]
      exact hnil

theorem fetch_timestamp_messages_decode_raises_witness :
    fetch_timestamp_messages ([] : Store) uaidHexW (some 1) 10 =
      Except.ok ((none : Option Int), ([] : List WebPushNotification)) ∧
    ([] : List WebPushNotification) = [] :=
  ⟨by decide,
   fetch_timestamp_messages_decode_raises.2 [] uaidHexW (some 1) 10 none []
     (by decide)⟩
